import Mathlib

/-!
Shallow embedding of `pymatgen/phasediagram/pdanalyzer.py` (class
`PDAnalyzer`): a hull-analysis engine over a precomputed phase diagram.
Machine floats are modelled as exact rationals; numpy's linear solve and
the external collaborators (`Simplex`, hull builders, reaction balancer)
are modelled from the spec where their code is not part of the sources.
-/

namespace PhaseDiag

/-- An element is an identity token (spec §3). -/
abbrev Element := ℕ

/-- A composition: a finite association of elements to amounts (spec §3). -/
structure Composition where
  amounts : List (Element × ℚ)
deriving DecidableEq, Repr

/-- Total amount of an element in a composition. -/
def Composition.amount (c : Composition) (el : Element) : ℚ :=
  c.amounts.foldl (fun s p => if p.1 = el then s + p.2 else s) 0

/-- Total number of atoms in a composition. -/
def Composition.num_atoms (c : Composition) : ℚ :=
  c.amounts.foldl (fun s p => s + p.2) 0

/-- `Composition.get_atomic_fraction`: amount of `el` over the total. -/
def Composition.get_atomic_fraction (c : Composition) (el : Element) : ℚ :=
  c.amount el / c.num_atoms

/-- An entry: a composition, an energy per atom, and (for grand-potential
entries) an optional back-reference to the original entry's data (spec §3). -/
structure Entry where
  composition : Composition
  energy_per_atom : ℚ
  original : Option (Composition × ℚ)
deriving DecidableEq, Repr

/-- `original_entry` of a grand-potential entry; a plain entry is its own
original. -/
def Entry.original_entry (e : Entry) : Entry :=
  match e.original with
  | some p => ⟨p.1, p.2, none⟩
  | none => e

def dComp : Composition := ⟨[]⟩

def dEntry : Entry := ⟨dComp, 0, none⟩

/-- The phase diagram (hull) supplied by the external hull builder:
ordered entries, ordered elements, simplex facets as index tuples,
the qhull coordinate rows, the stable subset and per-element references
(spec §3). -/
structure PhaseDiagram where
  elements : List Element
  qhull_entries : List Entry
  qhull_data : List (List ℚ)
  facets : List (List ℕ)
  stable_entries : List Entry
  all_entries : List Entry
  el_refs : List (Element × Entry)
deriving DecidableEq, Repr

/-- Dimension of the hull = number of elements. -/
def PhaseDiagram.dim (pd : PhaseDiagram) : ℕ := pd.elements.length

/-- The error kinds of the engine (spec §7). -/
inductive PDError where
  | NoFacetFoundError
  | SingularFacetError
  | NotStableError
  | UnknownElementError
deriving DecidableEq, Repr

/-- The process-wide numerical tolerance `PDAnalyzer.numerical_tol = 1e-8`. -/
def numerical_tol : ℚ := 1 / 100000000

/-- Dictionary lookup with default, for assoc lists such as
`dict(zip(elements, chempots))`. -/
def lookupD {α : Type} (l : List (Element × α)) (el : Element) (d : α) : α :=
  ((l.find? (fun p => p.1 = el)).map (fun p => p.2)).getD d

/-- Modelled from the spec: numpy's `np.linalg.inv`-based exact linear
solve, an external collaborator. Solves `A · x = b` by matrix inversion
(here by Cramer's rule, which agrees with it exactly over ℚ); fails — as
numpy raises `LinAlgError` — when `A` is singular. -/
def linSolve (n : ℕ) (A : Matrix (Fin n) (Fin n) ℚ) (b : Fin n → ℚ) :
    Option (Fin n → ℚ) :=
  if A.det = 0 then none
  else some (fun i => A.det⁻¹ * (A.updateColumn i b).det)

theorem linSolve_det_ne_zero {n : ℕ} {A : Matrix (Fin n) (Fin n) ℚ}
    {b x : Fin n → ℚ} (h : linSolve n A b = some x) : A.det ≠ 0 := by
  by_contra hdet
  simp [linSolve, hdet] at h

theorem linSolve_eq {n : ℕ} {A : Matrix (Fin n) (Fin n) ℚ}
    {b x : Fin n → ℚ} (h : linSolve n A b = some x) :
    x = fun i => A.det⁻¹ * (A.updateColumn i b).det := by
  have hdet := linSolve_det_ne_zero h
  simp only [linSolve, if_neg hdet, Option.some.injEq] at h
  exact h.symm

/-- A solution returned by `linSolve` really solves the system. -/
theorem linSolve_mulVec {n : ℕ} {A : Matrix (Fin n) (Fin n) ℚ}
    {b x : Fin n → ℚ} (h : linSolve n A b = some x) :
    A.mulVec x = b := by
  have hdet := linSolve_det_ne_zero h
  have hx := linSolve_eq h
  have hcram : x = A.det⁻¹ • Matrix.cramer A b := by
    funext i
    rw [hx]
    simp [Matrix.cramer_apply]
  rw [hcram, Matrix.mulVec_smul, Matrix.mulVec_cramer, smul_smul,
    inv_mul_cancel₀ hdet, one_smul]

/-- The system solved by `linSolve` has a unique solution. -/
theorem linSolve_unique {n : ℕ} {A : Matrix (Fin n) (Fin n) ℚ}
    {b x y : Fin n → ℚ} (h : linSolve n A b = some x)
    (hy : A.mulVec y = b) : y = x := by
  have hdet := linSolve_det_ne_zero h
  have hinj : Function.Injective A.mulVec :=
    Matrix.mulVec_injective_iff_isUnit.2
      (A.isUnit_iff_isUnit_det.2 (isUnit_iff_ne_zero.2 hdet))
  exact hinj (hy.trans (linSolve_mulVec h).symm)

/-- `PDAnalyzer._make_comp_matrix`: row `i` is the atomic-fraction vector of
`complist[i]` over the hull's element order. -/
def make_comp_matrix (pd : PhaseDiagram) (complist : List Composition) :
    Matrix (Fin pd.dim) (Fin pd.dim) ℚ :=
  Matrix.of fun i j =>
    (complist.getD i dComp).get_atomic_fraction (pd.elements.getD j 0)

/-- Atomic-fraction vector of a composition over the hull's element order. -/
def fracVec (pd : PhaseDiagram) (c : Composition) : Fin pd.dim → ℚ :=
  fun j => c.get_atomic_fraction (pd.elements.getD j 0)

/-- Modelled from the spec: the external `Simplex.in_simplex` predicate
(spec §4.1), whose code (`pymatgen.comp_geometry.simplex`) is not among the
sources: a barycentric-style solve with tolerance; the query point is
accepted when every barycentric coordinate is at least `-tol`. -/
def in_simplex (coords : List (List ℚ)) (point : List ℚ) (tol : ℚ) : Bool :=
  let n := coords.length
  let A : Matrix (Fin n) (Fin n) ℚ :=
    Matrix.of fun j i =>
      if (j : ℕ) = 0 then 1 else (coords.getD i []).getD ((j : ℕ) - 1) 0
  let b : Fin n → ℚ := fun j =>
    if (j : ℕ) = 0 then 1 else point.getD ((j : ℕ) - 1) 0
  match linSolve n A b with
  | none => false
  | some lam => decide (∀ i : Fin n, -tol ≤ lam i)

/-- `PDAnalyzer._in_facet`: when the hull has more than one element, build a
simplex from the facet's qhull rows (first `dim - 1` columns) and test the
composition's dropped-coordinate fraction point; a one-element hull is
always "inside". -/
def in_facet (pd : PhaseDiagram) (facet : List ℕ) (comp : Composition) : Bool :=
  if 1 < pd.dim then
    let coords := facet.map (fun i => (pd.qhull_data.getD i []).take (pd.dim - 1))
    let comp_point := (List.range (pd.dim - 1)).map
      (fun j => comp.get_atomic_fraction (pd.elements.getD (j + 1) 0))
    in_simplex coords comp_point numerical_tol
  else true

/-- `PDAnalyzer._get_facets`: all facets containing the composition, in the
hull's facet order. -/
def get_facets (pd : PhaseDiagram) (comp : Composition) : List (List ℕ) :=
  pd.facets.filter (fun facet => in_facet pd facet comp)

/-- `PDAnalyzer._get_facet`: the first facet containing the composition;
raises when none does. -/
def get_facet (pd : PhaseDiagram) (comp : Composition) :
    Except PDError (List ℕ) :=
  match pd.facets.find? (fun facet => in_facet pd facet comp) with
  | some facet => .ok facet
  | none => .error .NoFacetFoundError

/-- `PDAnalyzer.get_decomposition`: locate a facet, solve `Mᵀ·x = c` for the
amounts, and keep the entries whose amount exceeds the tolerance in
absolute value. -/
def get_decomposition (pd : PhaseDiagram) (comp : Composition) :
    Except PDError (List (Entry × ℚ)) := do
  let facet ← get_facet pd comp
  let complist := facet.map (fun i => (pd.qhull_entries.getD i dEntry).composition)
  let m := make_comp_matrix pd complist
  match linSolve pd.dim m.transpose (fracVec pd comp) with
  | none => .error .SingularFacetError
  | some decompamts =>
    .ok ((List.finRange pd.dim).filterMap (fun i =>
      if numerical_tol < |decompamts i| then
        some (pd.qhull_entries.getD (facet.getD i 0) dEntry, decompamts i)
      else none))

/-- The hull energy of a decomposition: `Σ amount · refEntry.energy_per_atom`. -/
def hull_energy (decomp : List (Entry × ℚ)) : ℚ :=
  (decomp.map (fun p => p.1.energy_per_atom * p.2)).sum

/-- `PDAnalyzer.get_decomp_and_e_above_hull`: the decomposition together
with the energy above the hull, forced to 0 when the entry's energy per
atom is below the tolerance in magnitude. -/
def get_decomp_and_e_above_hull (pd : PhaseDiagram) (entry : Entry) :
    Except PDError (List (Entry × ℚ) × ℚ) := do
  let comp := entry.composition
  let eperatom := entry.energy_per_atom
  let decomp ← get_decomposition pd comp
  let hullenergy := hull_energy decomp
  if |eperatom| < numerical_tol then
    return (decomp, 0)
  return (decomp, eperatom - hullenergy)

/-- `PDAnalyzer.get_e_above_hull`: the distance component alone. -/
def get_e_above_hull (pd : PhaseDiagram) (entry : Entry) : Except PDError ℚ := do
  let r ← get_decomp_and_e_above_hull pd entry
  return r.2

/-- `PDAnalyzer.get_equilibrium_reaction_energy`: only for stable entries;
rebuilds a hull (through the external builder `build`, spec §6) from all
entries except `entry` and returns the energy above that hull. -/
def get_equilibrium_reaction_energy
    (build : List Entry → List Element → PhaseDiagram)
    (pd : PhaseDiagram) (entry : Entry) : Except PDError ℚ :=
  if entry ∈ pd.stable_entries then
    let entries := pd.all_entries.filter (fun e => e ≠ entry)
    let modpd := build entries pd.elements
    get_e_above_hull modpd entry
  else .error .NotStableError

/-- `PDAnalyzer.get_facet_chempots`: solve `M·μ = e` for the facet's
chemical potentials and pair them with the elements. -/
def get_facet_chempots (pd : PhaseDiagram) (facet : List ℕ) :
    Except PDError (List (Element × ℚ)) :=
  let complist := facet.map (fun i => (pd.qhull_entries.getD i dEntry).composition)
  let energylist := facet.map (fun i => (pd.qhull_entries.getD i dEntry).energy_per_atom)
  let m := make_comp_matrix pd complist
  match linSolve pd.dim m (fun j => energylist.getD j 0) with
  | none => .error .SingularFacetError
  | some chempots =>
    .ok ((List.finRange pd.dim).map (fun (j : Fin pd.dim) =>
      (pd.elements.getD (j : ℕ) 0, chempots j)))

/-- The inner loop of the dedupe pass of `get_transition_chempots`:
`last` is the last value already kept. -/
def dedupeAux (tol : ℚ) (last : ℚ) : List ℚ → List ℚ
  | [] => []
  | c :: rest =>
    if tol < |c - last| then c :: dedupeAux tol c rest
    else dedupeAux tol last rest

/-- The dedupe pass of `get_transition_chempots`: keep the first of each
run of values within `tol` of the last kept value. -/
def dedupeAdjacent (tol : ℚ) : List ℚ → List ℚ
  | [] => []
  | c :: rest => c :: dedupeAux tol c rest

/-- One facet's chemical potential for `element`. -/
def facet_chempot (pd : PhaseDiagram) (element : Element) (facet : List ℕ) :
    Except PDError ℚ := do
  let chempots ← get_facet_chempots pd facet
  return lookupD chempots element 0

/-- The collection loop of `get_transition_chempots`: one potential per
facet, in facet order. -/
def collect_chempots (pd : PhaseDiagram) (element : Element) :
    List (List ℕ) → Except PDError (List ℚ)
  | [] => .ok []
  | facet :: rest => do
    let c ← facet_chempot pd element facet
    let others ← collect_chempots pd element rest
    return c :: others

/-- `PDAnalyzer.get_transition_chempots`: the per-facet potentials of
`element`, sorted ascending, deduplicated, then reversed. -/
def get_transition_chempots (pd : PhaseDiagram) (element : Element) :
    Except PDError (List ℚ) := do
  if element ∈ pd.elements then
    let critical_chempots ← collect_chempots pd element pd.facets
    let clean_pots := dedupeAdjacent numerical_tol
      (critical_chempots.insertionSort (fun a b => a ≤ b))
    return clean_pots.reverse
  else .error .UnknownElementError

/-- The ad hoc amount threshold `1e-5` used by `get_element_profile` when
filtering decomposition amounts. -/
def profile_amount_threshold : ℚ := 1 / 100000

/-- An evolution event of `get_element_profile` (one dict of the returned
list). The `reaction` field holds the balanced reaction as the pair
(all compositions, coefficients) produced by the external balancer. -/
structure EvolutionEvent where
  chempot : ℚ
  evolution : ℚ
  element_reference : Entry
  reaction : List Composition × List ℚ
  entries : List Entry
deriving DecidableEq, Repr

/-- The inner `are_same_decomp` helper of `get_element_profile`: every
composition of `decomp2` is a member of `decomp1`. -/
def are_same_decomp (decomp1 decomp2 : List Composition) : Bool :=
  decomp2.all (fun comp => comp ∈ decomp1)

/-- One sweep step of `get_element_profile`: build the grand-potential hull
(through the external collaborator `gcpdBuild`, spec §6) at the given
potential of `element` and decompose the element-free composition in it. -/
def profile_step (gcpdBuild : List Entry → Element → ℚ → List Element → PhaseDiagram)
    (pd : PhaseDiagram) (element : Element) (gccomp : Composition) (pot : ℚ) :
    Except PDError (List (Entry × ℚ)) :=
  let gcpd := gcpdBuild pd.stable_entries element pot pd.elements
  get_decomposition gcpd gccomp

/-- The filtered decomposition of one sweep step: the original entries of
the grand-potential decomposition whose amount exceeds `1e-5`. -/
def profile_step_entries
    (gcpdBuild : List Entry → Element → ℚ → List Element → PhaseDiagram)
    (pd : PhaseDiagram) (element : Element) (gccomp : Composition) (pot : ℚ) :
    Except PDError (List Entry) := do
  let pairs ← profile_step gcpdBuild pd element gccomp pot
  return pairs.filterMap (fun p =>
    if profile_amount_threshold < p.2 then some p.1.original_entry else none)

/-- Tolerance-generic variant of the facet-membership test, to name the
tolerance site of `_in_facet`. -/
def in_facetT (tol : ℚ) (pd : PhaseDiagram) (facet : List ℕ)
    (comp : Composition) : Bool :=
  if 1 < pd.dim then
    let coords := facet.map (fun i => (pd.qhull_data.getD i []).take (pd.dim - 1))
    let comp_point := (List.range (pd.dim - 1)).map
      (fun j => comp.get_atomic_fraction (pd.elements.getD (j + 1) 0))
    in_simplex coords comp_point tol
  else true

/-- Pruning-threshold-generic variant of the decomposition solver, to name
the tolerance site of `get_decomposition`. -/
def get_decompositionT (tol : ℚ) (pd : PhaseDiagram) (comp : Composition) :
    Except PDError (List (Entry × ℚ)) := do
  let facet ← get_facet pd comp
  let complist := facet.map (fun i => (pd.qhull_entries.getD i dEntry).composition)
  let m := make_comp_matrix pd complist
  match linSolve pd.dim m.transpose (fracVec pd comp) with
  | none => .error .SingularFacetError
  | some decompamts =>
    .ok ((List.finRange pd.dim).filterMap (fun i =>
      if tol < |decompamts i| then
        some (pd.qhull_entries.getD (facet.getD i 0) dEntry, decompamts i)
      else none))

/-- Dedupe-tolerance-generic variant of the transition enumerator, to name
the tolerance site of `get_transition_chempots`. -/
def get_transition_chempotsT (tol : ℚ) (pd : PhaseDiagram)
    (element : Element) : Except PDError (List ℚ) := do
  if element ∈ pd.elements then
    let critical_chempots ← collect_chempots pd element pd.facets
    let clean_pots := dedupeAdjacent tol
      (critical_chempots.insertionSort (fun a b => a ≤ b))
    return clean_pots.reverse
  else .error .UnknownElementError

/-- Amount-threshold-generic variant of the profile step filter, to name
the ad hoc `1e-5` threshold of `get_element_profile`. -/
def profile_step_entriesT (tol : ℚ)
    (gcpdBuild : List Entry → Element → ℚ → List Element → PhaseDiagram)
    (pd : PhaseDiagram) (element : Element) (gccomp : Composition) (pot : ℚ) :
    Except PDError (List Entry) := do
  let pairs ← profile_step gcpdBuild pd element gccomp pot
  return pairs.filterMap (fun p =>
    if tol < p.2 then some p.1.original_entry else none)

/-- The state component of the profile sweep: the last recorded
decomposition after processing the given potentials, starting from
`prev`. It mirrors exactly the `prev_decomp` updates of
`get_element_profile`: unchanged when the membership test passes, replaced
by the current decomposition (with the element composition inserted when
absent) when it fails. -/
def profile_prev
    (gcpdBuild : List Entry → Element → ℚ → List Element → PhaseDiagram)
    (pd : PhaseDiagram) (element : Element) (gccomp : Composition)
    (elcomp : Composition) (prev : List Composition) :
    List ℚ → Except PDError (List Composition)
  | [] => .ok prev
  | c :: rest => do
    let decomp_entries ← profile_step_entries gcpdBuild pd element gccomp
      (c - 1/100)
    let decomp0 := decomp_entries.map (fun e => e.composition)
    if are_same_decomp prev decomp0 then
      profile_prev gcpdBuild pd element gccomp elcomp prev rest
    else
      profile_prev gcpdBuild pd element gccomp elcomp
        (if elcomp ∈ decomp0 then decomp0 else elcomp :: decomp0) rest

/-- The sweep loop of `get_element_profile`: `prev` is the last recorded
decomposition (composition list). -/
def profile_loop (gcpdBuild : List Entry → Element → ℚ → List Element → PhaseDiagram)
    (balance : Composition → List Composition → List Composition × List ℚ)
    (pd : PhaseDiagram) (element : Element) (gccomp : Composition)
    (comp : Composition) (elcomp : Composition) (elref : Entry)
    (prev : List Composition) : List ℚ → Except PDError (List EvolutionEvent)
  | [] => .ok []
  | c :: rest => do
    let decomp_entries ← profile_step_entries gcpdBuild pd element gccomp (c - 1 / 100)
    let decomp0 := decomp_entries.map (fun e => e.composition)
    if are_same_decomp prev decomp0 then
      profile_loop gcpdBuild balance pd element gccomp comp elcomp elref prev rest
    else
      let decomp := if elcomp ∈ decomp0 then decomp0 else elcomp :: decomp0
      let rxn := balance comp decomp
      let ev : EvolutionEvent :=
        ⟨c, -(rxn.2.getD (rxn.1.indexOf elcomp) 0), elref, rxn, decomp_entries⟩
      let others ← profile_loop gcpdBuild balance pd element gccomp comp elcomp elref decomp rest
      return ev :: others

/-- `PDAnalyzer.get_element_profile`: sweep the transition potentials of
`element` from least to most negative, rebuild the grand-potential hull at
each potential shifted by `-0.01`, and record an event whenever the
decomposition membership test against the last recorded decomposition
fails. The grand-potential hull builder and the reaction balancer
(`Reaction` + `normalize_to`) are external collaborators (spec §6) passed
as parameters. -/
def get_element_profile
    (gcpdBuild : List Entry → Element → ℚ → List Element → PhaseDiagram)
    (balance : Composition → List Composition → List Composition × List ℚ)
    (pd : PhaseDiagram) (element : Element) (comp : Composition) :
    Except PDError (List EvolutionEvent) := do
  if element ∈ pd.elements then
    let chempots ← get_transition_chempots pd element
    let gccomp : Composition := ⟨comp.amounts.filter (fun p => p.1 ≠ element)⟩
    let elref := lookupD pd.el_refs element dEntry
    let elcomp : Composition := ⟨[(element, 1)]⟩
    profile_loop gcpdBuild balance pd element gccomp comp elcomp elref [] chempots
  else .error .UnknownElementError

/-- A simplex of the range map, kept as its coordinate rows. -/
abbrev RangeSimplex := List (List ℚ)

/-- Ordered pairs of distinct list members, in `itertools.combinations`
order. -/
def comb2 {α : Type} : List α → List (α × α)
  | [] => []
  | x :: xs => (xs.map (fun y => (x, y))) ++ comb2 xs

/-- One coordinate row of a boundary simplex: the facet's chemical
potential of each requested element, offset by that element's
pure-reference energy per atom. -/
def chempot_coord_row (pd : PhaseDiagram) (elements : List Element)
    (cp : List (Element × ℚ)) : List ℚ :=
  elements.map (fun el =>
    lookupD cp el 0 - (lookupD pd.el_refs el dEntry).energy_per_atom)

/-- The boundary simplex recorded by `get_chempot_range_map` for a
qualifying pair of facets: one coordinate row per facet. -/
def range_map_pair (pd : PhaseDiagram) (elements : List Element)
    (fp : List ℕ × List ℕ) : Except PDError (Option RangeSimplex) := do
  let inter := fp.1.toFinset ∩ fp.2.toFinset
  if inter.card = pd.dim - 1 then
    let c1 ← get_facet_chempots pd fp.1
    let c2 ← get_facet_chempots pd fp.2
    return some [chempot_coord_row pd elements c1, chempot_coord_row pd elements c2]
  else
    return none

/-- The inner pair loop of `get_chempot_range_map`: the simplices of the
qualifying facet pairs, in `itertools.combinations` order. -/
def range_map_simplices (pd : PhaseDiagram) (elements : List Element) :
    List (List ℕ × List ℕ) → Except PDError (List RangeSimplex)
  | [] => .ok []
  | fp :: rest => do
    match ← range_map_pair pd elements fp with
    | some sim => return sim :: (← range_map_simplices pd elements rest)
    | none => range_map_simplices pd elements rest

/-- The outer entry loop of `get_chempot_range_map`. -/
def range_map_loop (pd : PhaseDiagram) (elements : List Element) :
    List Entry → Except PDError (List (Entry × List RangeSimplex))
  | [] => .ok []
  | entry :: rest => do
    let simplices ← range_map_simplices pd elements
      (comb2 (get_facets pd entry.composition))
    let others ← range_map_loop pd elements rest
    if 0 < simplices.length then
      return (entry, simplices) :: others
    else
      return others

/-- `PDAnalyzer.get_chempot_range_map`: for each stable entry, the boundary
simplices coming from pairs of its facets whose index intersection has
exactly `dim - 1` vertices; entries with no simplex are omitted. -/
def get_chempot_range_map (pd : PhaseDiagram) (elements : List Element) :
    Except PDError (List (Entry × List RangeSimplex)) :=
  range_map_loop pd elements pd.stable_entries

/-! Concrete example data: the binary A–B hull of spec §8 (elements A = 0,
B = 1; pure A and pure B at energy 0, the AB compound at −1 per atom), and
a unary hull. -/

def cA : Composition := ⟨[(0, 1)]⟩

def cB : Composition := ⟨[(1, 1)]⟩

def cAB : Composition := ⟨[(0, 1), (1, 1)]⟩

def eA : Entry := ⟨cA, 0, none⟩

def eB : Entry := ⟨cB, 0, none⟩

def eAB : Entry := ⟨cAB, -1, none⟩

/-- A non-stable entry over the binary hull. -/
def eX : Entry := ⟨cA, 5, none⟩

def pdBin : PhaseDiagram :=
  ⟨[0, 1], [eA, eB, eAB], [[0], [1], [1/2]], [[0, 2], [2, 1]],
   [eA, eB, eAB], [eA, eB, eAB, eX], [(0, eA), (1, eB)]⟩

def pdUnary : PhaseDiagram :=
  ⟨[0], [eA], [[]], [[0]], [eA], [eA], [(0, eA)]⟩

/-! Helper lemmas. -/

/-- `List.find?` returns the first element satisfying the predicate. -/
theorem find?_first_iff {α : Type} (p : α → Bool) (l : List α) (x : α) :
    l.find? p = some x ↔
      ∃ i : ℕ, l[i]? = some x ∧ p x = true ∧
        ∀ j, j < i → ∀ y, l[j]? = some y → p y = false := by
  induction l with
  | nil => simp
  | cons a t ih =>
    by_cases ha : p a = true
    · rw [List.find?_cons_of_pos _ ha]
      constructor
      · rintro h
        injection h with h
        subst h
        exact ⟨0, by simp, ha, fun j hj => absurd hj (Nat.not_lt_zero j)⟩
      · rintro ⟨i, hi, hx, hfirst⟩
        cases i with
        | zero =>
          simp only [List.getElem?_cons_zero, Option.some.injEq] at hi
          rw [hi]
        | succ n =>
          have h0 := hfirst 0 (Nat.succ_pos n) a (by simp)
          rw [ha] at h0
          cases h0
    · rw [List.find?_cons_of_neg _ ha]
      rw [ih]
      constructor
      · rintro ⟨i, hi, hx, hfirst⟩
        refine ⟨i + 1, by simpa using hi, hx, ?_⟩
        intro j hj y hy
        cases j with
        | zero =>
          simp only [List.getElem?_cons_zero, Option.some.injEq] at hy
          subst hy
          exact Bool.eq_false_iff.2 ha
        | succ m =>
          exact hfirst m (by omega) y (by simpa using hy)
      · rintro ⟨i, hi, hx, hfirst⟩
        cases i with
        | zero =>
          simp only [List.getElem?_cons_zero, Option.some.injEq] at hi
          subst hi
          exact absurd hx ha
        | succ m =>
          refine ⟨m, by simpa using hi, hx, ?_⟩
          intro j hj y hy
          exact hfirst (j + 1) (by omega) y (by simpa using hy)

/-- The dedupe pass keeps values whose successive gaps all exceed `tol`,
seen from the last kept value. -/
theorem dedupeAux_chain (tol : ℚ) :
    ∀ (l : List ℚ) (last : ℚ), l.Sorted (fun a b => a ≤ b) →
      (∀ x ∈ l, last ≤ x) →
      List.Chain' (fun a b => tol < b - a) (last :: dedupeAux tol last l) := by
  intro l
  induction l with
  | nil => intro last _ _; rw [dedupeAux]; exact List.chain'_singleton last
  | cons c rest ih =>
    intro last hs hlast
    obtain ⟨hc_all, hrest⟩ := List.sorted_cons.1 hs
    have hlc : last ≤ c := hlast c (List.mem_cons_self c rest)
    unfold dedupeAux
    by_cases hgap : tol < |c - last|
    · rw [if_pos hgap]
      rw [abs_of_nonneg (sub_nonneg.2 hlc)] at hgap
      exact List.Chain'.cons hgap (ih c hrest hc_all)
    · rw [if_neg hgap]
      exact ih last hrest (fun x hx => le_trans hlc (hc_all x hx))

/-- Every input value is within `tol` of the last kept value or of itself. -/
theorem dedupeAux_cover (tol : ℚ) (htol : 0 ≤ tol) :
    ∀ (l : List ℚ) (last : ℚ), ∀ x ∈ l,
      ∃ r ∈ last :: dedupeAux tol last l, |x - r| ≤ tol := by
  intro l
  induction l with
  | nil => intro last x hx; cases hx
  | cons c rest ih =>
    intro last x hx
    unfold dedupeAux
    by_cases hgap : tol < |c - last|
    · rw [if_pos hgap]
      rcases List.mem_cons.1 hx with rfl | hx
      · exact ⟨x, by simp, by simp [htol]⟩
      · obtain ⟨r, hr, hxr⟩ := ih c x hx
        exact ⟨r, List.mem_cons_of_mem last hr, hxr⟩
    · rw [if_neg hgap]
      rcases List.mem_cons.1 hx with rfl | hx
      · exact ⟨last, List.mem_cons_self last _, le_of_not_lt hgap⟩
      · obtain ⟨r, hr, hxr⟩ := ih last x hx
        exact ⟨r, hr, hxr⟩

/-- The dedupe pass only returns input values. -/
theorem dedupeAux_subset (tol : ℚ) :
    ∀ (l : List ℚ) (last : ℚ), dedupeAux tol last l ⊆ l := by
  intro l
  induction l with
  | nil => intro last x hx; rw [dedupeAux] at hx; cases hx
  | cons c rest ih =>
    intro last
    unfold dedupeAux
    by_cases hgap : tol < |c - last|
    · rw [if_pos hgap]
      exact List.cons_subset_cons c (ih c)
    · rw [if_neg hgap]
      exact List.Subset.trans (ih last) (List.subset_cons_self c rest)

/-- Chain property of the full dedupe pass on a sorted list. -/
theorem dedupeAdjacent_chain (tol : ℚ) (l : List ℚ)
    (hs : l.Sorted (fun a b => a ≤ b)) :
    List.Chain' (fun a b => tol < b - a) (dedupeAdjacent tol l) := by
  cases l with
  | nil => simp [dedupeAdjacent]
  | cons c rest =>
    obtain ⟨hc_all, hrest⟩ := List.sorted_cons.1 hs
    exact dedupeAux_chain tol rest c hrest hc_all

/-- Coverage property of the full dedupe pass. -/
theorem dedupeAdjacent_cover (tol : ℚ) (htol : 0 ≤ tol) (l : List ℚ) :
    ∀ x ∈ l, ∃ r ∈ dedupeAdjacent tol l, |x - r| ≤ tol := by
  cases l with
  | nil => intro x hx; cases hx
  | cons c rest =>
    intro x hx
    rcases List.mem_cons.1 hx with rfl | hx
    · exact ⟨x, List.mem_cons_self x _, by simp [htol]⟩
    · exact dedupeAux_cover tol htol rest c x hx

/-- The dedupe pass only returns input values. -/
theorem dedupeAdjacent_subset (tol : ℚ) (l : List ℚ) :
    dedupeAdjacent tol l ⊆ l := by
  cases l with
  | nil => simp [dedupeAdjacent]
  | cons c rest =>
    exact List.cons_subset_cons c (dedupeAux_subset tol rest c)

theorem except_bind_ok {e a b : Type} (x : a) (f : a → Except e b) :
    Except.bind (Except.ok x) f = f x := rfl

theorem except_bind_error {e a b : Type} (err : e) (f : a → Except e b) :
    Except.bind (Except.error err) f = Except.error err := rfl

theorem getD_map_of_lt {α β : Type} (l : List α) (f : α → β) (i : ℕ)
    (d : β) (d2 : α) (h : i < l.length) :
    (l.map f).getD i d = f (l.getD i d2) := by
  rw [List.getD_eq_getElem?_getD, List.getD_eq_getElem?_getD, List.getElem?_map,
    List.getElem?_eq_getElem h]
  simp

theorem getD_mem {α : Type} (l : List α) (i : ℕ) (d : α) (h : i < l.length) :
    l.getD i d ∈ l := by
  rw [List.getD_eq_getElem?_getD, List.getElem?_eq_getElem h]
  simpa using List.getElem_mem h

theorem getD_range_map {β : Type} (k : ℕ) (g : ℕ → β) (i : ℕ) (d : β)
    (h : i < k) : ((List.range k).map g).getD i d = g i := by
  rw [getD_map_of_lt _ _ _ _ 0 (by simpa using h), List.getD_eq_getElem?_getD,
    List.getElem?_range h]
  rfl

theorem getD_take_of_lt (l : List ℚ) (k i : ℕ) (h : i < k) :
    (l.take k).getD i 0 = l.getD i 0 := by
  rw [List.getD_eq_getElem?_getD, List.getD_eq_getElem?_getD,
    List.getElem?_take, if_pos h]

theorem sum_map_filter {α : Type} (p : α → Bool) (f : α → ℚ) (l : List α) :
    ((l.filter p).map f).sum = (l.map (fun a => if p a then f a else 0)).sum := by
  induction l with
  | nil => rfl
  | cons a t ih =>
    by_cases hp : p a <;> simp [List.filter_cons, hp, ih]

theorem filterMap_ite_eq {α β : Type} (p : α → Prop) [DecidablePred p]
    (g : α → β) (l : List α) :
    l.filterMap (fun a => if p a then some (g a) else none) =
      (l.filter (fun a => decide (p a))).map g := by
  induction l with
  | nil => rfl
  | cons a t ih =>
    by_cases hp : p a <;>
      simp [List.filterMap_cons, List.filter_cons, hp, ih]

/-- Structural unfolding of a successful `get_decomposition`. -/
theorem get_decomposition_sol (pd : PhaseDiagram) (comp : Composition)
    (d : List (Entry × ℚ)) (h : get_decomposition pd comp = .ok d) :
    ∃ facet x,
      get_facet pd comp = .ok facet ∧
      linSolve pd.dim (make_comp_matrix pd
          (facet.map (fun i =>
            (pd.qhull_entries.getD i dEntry).composition))).transpose
        (fracVec pd comp) = some x ∧
      d = (List.finRange pd.dim).filterMap (fun i =>
        if numerical_tol < |x i| then
          some (pd.qhull_entries.getD (facet.getD i 0) dEntry, x i)
        else none) := by
  rw [get_decomposition] at h
  simp only [Bind.bind] at h
  cases hf : get_facet pd comp with
  | error err => rw [hf, except_bind_error] at h; cases h
  | ok facet =>
    rw [hf, except_bind_ok] at h
    cases hls : linSolve pd.dim (make_comp_matrix pd
        (facet.map (fun i =>
          (pd.qhull_entries.getD i dEntry).composition))).transpose
        (fracVec pd comp) with
    | none => rw [hls] at h; cases h
    | some x =>
      rw [hls] at h
      injection h with h
      exact ⟨facet, x, rfl, hls, h.symm⟩

/-! Claims. -/

/-- C9: on a unary hull (one element), the facet-membership test returns
true for every facet and every composition, and the result never consults
the simplex source data (no Simplex is constructed): replacing the qhull
rows by anything leaves it true. -/
theorem claim9_unary_hull (pd : PhaseDiagram) (facet : List ℕ)
    (comp : Composition) (h : pd.elements.length = 1) :
    in_facet pd facet comp = true ∧
    ∀ qd : List (List ℚ),
      in_facet { pd with qhull_data := qd } facet comp = true := by
  refine ⟨?_, fun qd => ?_⟩ <;> simp [in_facet, PhaseDiagram.dim, h]

/-- Witness for C9 at the concrete unary hull. -/
theorem claim9_unary_hull_witness :
    pdUnary.elements.length = 1 ∧
      (in_facet pdUnary [0] cA = true ∧
        ∀ qd : List (List ℚ),
          in_facet { pdUnary with qhull_data := qd } [0] cA = true) :=
  ⟨rfl, claim9_unary_hull pdUnary [0] cA rfl⟩

/-- C7: the single-facet locator returns the first facet (in the hull's
facet order) whose simplex contains the composition, fails with
NoFacetFoundError exactly when no facet contains it, and the all-facets
variant returns exactly the containing facets in the same scan order. -/
theorem claim7_facet_locator (pd : PhaseDiagram) (comp : Composition) :
    (∀ f, get_facet pd comp = .ok f ↔
      ∃ i : ℕ, pd.facets[i]? = some f ∧ in_facet pd f comp = true ∧
        ∀ j, j < i → ∀ g, pd.facets[j]? = some g →
          in_facet pd g comp = false) ∧
    (get_facet pd comp = .error .NoFacetFoundError ↔
      ∀ f ∈ pd.facets, in_facet pd f comp = false) ∧
    (∀ f, f ∈ get_facets pd comp ↔
      f ∈ pd.facets ∧ in_facet pd f comp = true) ∧
    (get_facets pd comp).Sublist pd.facets := by
  refine ⟨fun f => ?_, ?_, fun f => ?_, ?_⟩
  · rw [← find?_first_iff (fun facet => in_facet pd facet comp) pd.facets f]
    unfold get_facet
    cases hf : pd.facets.find? (fun facet => in_facet pd facet comp) <;> simp [hf]
  · unfold get_facet
    cases hf : pd.facets.find? (fun facet => in_facet pd facet comp) with
    | some f =>
      have hmem := List.mem_of_find?_eq_some hf
      have hsat := List.find?_some hf
      constructor
      · intro h
        exact absurd h (by simp)
      · intro hall
        rw [hall f hmem] at hsat
        cases hsat
    | none =>
      rw [List.find?_eq_none] at hf
      constructor
      · intro _ g hg
        exact Bool.eq_false_iff.2 (hf g hg)
      · intro _
        rfl
  · simp [get_facets, List.mem_filter]
  · exact List.filter_sublist pd.facets

/-- C1: whenever the decomposition of the entry's composition succeeds,
`get_decomp_and_e_above_hull` returns that decomposition paired with
`energy_per_atom − Σ amount·refEntry.energy_per_atom`, except that an
entry whose energy-per-atom magnitude is below the tolerance gets hull
distance exactly 0. -/
theorem claim1_decomp_and_e_above_hull (pd : PhaseDiagram) (entry : Entry)
    (d : List (Entry × ℚ))
    (h : get_decomposition pd entry.composition = .ok d) :
    get_decomp_and_e_above_hull pd entry =
      .ok (d, if |entry.energy_per_atom| < numerical_tol then 0
        else entry.energy_per_atom -
          (d.map (fun p => p.1.energy_per_atom * p.2)).sum) := by
  simp only [get_decomp_and_e_above_hull, h, hull_energy, Bind.bind, Except.bind,
    pure, Except.pure]
  split <;> rename_i hc <;> simp [hc]

/-- Concrete evaluation: the AB compound decomposes to itself on the
binary hull. -/
theorem pdBin_decomp_AB : get_decomposition pdBin eAB.composition = .ok [(eAB, 1)] := by
  simp [get_decomposition, get_facet, in_facet, in_simplex, linSolve, pdBin,
    PhaseDiagram.dim, numerical_tol, make_comp_matrix, fracVec,
    Matrix.det_fin_two, Matrix.of_apply, Matrix.updateColumn_apply,
    Matrix.transpose_apply,
    Composition.get_atomic_fraction, Composition.amount, Composition.num_atoms,
    cA, cB, cAB, eA, eB, eAB, dComp, dEntry, Fin.forall_fin_two,
    List.find?, List.finRange, List.filterMap, Bind.bind, Except.bind]
  norm_num

/-- Witness for C1 at the AB compound of the binary hull. -/
theorem claim1_decomp_and_e_above_hull_witness :
    get_decomposition pdBin eAB.composition = .ok [(eAB, 1)] ∧
    get_decomp_and_e_above_hull pdBin eAB =
      .ok ([(eAB, 1)], if |eAB.energy_per_atom| < numerical_tol then 0
        else eAB.energy_per_atom -
          (([(eAB, (1 : ℚ))]).map (fun p => p.1.energy_per_atom * p.2)).sum) :=
  ⟨pdBin_decomp_AB,
    claim1_decomp_and_e_above_hull pdBin eAB [(eAB, 1)] pdBin_decomp_AB⟩

/-- C6: equilibrium reaction energy fails with NotStableError for every
non-stable entry, independently of the hull builder (so no hull is ever
rebuilt for it); for a stable entry it is the energy above the hull
rebuilt, by the external builder, from all entries except the entry
itself. -/
theorem claim6_equilibrium_reaction_energy (pd : PhaseDiagram) (entry : Entry) :
    (entry ∉ pd.stable_entries →
      ∀ build : List Entry → List Element → PhaseDiagram,
        get_equilibrium_reaction_energy build pd entry =
          .error .NotStableError) ∧
    (entry ∈ pd.stable_entries →
      ∀ build : List Entry → List Element → PhaseDiagram,
        get_equilibrium_reaction_energy build pd entry =
          get_e_above_hull
            (build (pd.all_entries.filter (fun e => e ≠ entry)) pd.elements)
            entry) := by
  constructor <;> intro h build <;> simp [get_equilibrium_reaction_energy, h]

/-- The non-stable entry of the binary hull really is non-stable. -/
theorem pdBin_eX_not_stable : eX ∉ pdBin.stable_entries := by
  norm_num [pdBin, eX, eA, eB, eAB, cA, cB, cAB]

/-- Witness for C6: a non-stable and a stable entry of the binary hull. -/
theorem claim6_equilibrium_reaction_energy_witness :
    eX ∉ pdBin.stable_entries ∧ eA ∈ pdBin.stable_entries ∧
    get_equilibrium_reaction_energy (fun _ _ => pdBin) pdBin eX =
      .error .NotStableError ∧
    get_equilibrium_reaction_energy (fun _ _ => pdBin) pdBin eA =
      get_e_above_hull
        ((fun _ _ => pdBin) (pdBin.all_entries.filter (fun e => e ≠ eA))
          pdBin.elements) eA :=
  ⟨pdBin_eX_not_stable, by simp [pdBin],
    (claim6_equilibrium_reaction_energy pdBin eX).1 pdBin_eX_not_stable _,
    (claim6_equilibrium_reaction_energy pdBin eA).2 (by simp [pdBin]) _⟩


/-- C3: the transition chemical potentials of an element are the facet
potentials after ascending sort, adjacent dedupe within the tolerance
(keeping the first of each run) and reversal; consequently the returned
tuple is strictly decreasing with every adjacent gap above the tolerance,
and every facet potential lies within the tolerance of some returned
value. -/
theorem claim3_transition_chempots (pd : PhaseDiagram) (element : Element)
    (pots res : List ℚ)
    (hel : element ∈ pd.elements)
    (hc : collect_chempots pd element pd.facets = .ok pots)
    (hres : get_transition_chempots pd element = .ok res) :
    res = (dedupeAdjacent numerical_tol
      (pots.insertionSort (fun a b => a ≤ b))).reverse ∧
    res.Chain' (fun a b => numerical_tol < a - b) ∧
    (∀ c ∈ pots, ∃ r ∈ res, |c - r| ≤ numerical_tol) ∧
    res ⊆ pots := by
  have hval : res = (dedupeAdjacent numerical_tol
      (pots.insertionSort (fun a b => a ≤ b))).reverse := by
    rw [get_transition_chempots, if_pos hel] at hres
    simp only [hc, Bind.bind, Except.bind, pure, Except.pure,
      Except.ok.injEq] at hres
    exact hres.symm
  have hsorted := List.sorted_insertionSort (fun a b => a ≤ b) pots
  have hperm := List.perm_insertionSort (fun a b => a ≤ b) pots
  subst hval
  refine ⟨rfl, ?_, ?_, ?_⟩
  · rw [List.chain'_reverse]
    exact dedupeAdjacent_chain numerical_tol _ hsorted
  · intro c hcmem
    obtain ⟨r, hr, hcr⟩ := dedupeAdjacent_cover numerical_tol
      (by norm_num [numerical_tol]) _ c (hperm.mem_iff.2 hcmem)
    exact ⟨r, List.mem_reverse.2 hr, hcr⟩
  · intro r hr
    exact hperm.mem_iff.1
      (dedupeAdjacent_subset numerical_tol _ (List.mem_reverse.1 hr))

theorem pdBin_collect : collect_chempots pdBin 0 pdBin.facets = .ok [0, -2] := by
  simp [collect_chempots, facet_chempot, get_facet_chempots, linSolve, pdBin,
    PhaseDiagram.dim, make_comp_matrix, lookupD,
    Matrix.det_fin_two, Matrix.of_apply, Matrix.updateColumn_apply,
    Composition.get_atomic_fraction, Composition.amount, Composition.num_atoms,
    cA, cB, cAB, eA, eB, eAB, dComp, dEntry, Fin.forall_fin_two,
    List.find?, List.finRange, Bind.bind, Except.bind, pure, Except.pure]
  norm_num


theorem pdBin_trans : get_transition_chempots pdBin 0 = .ok [0, -2] := by
  rw [get_transition_chempots,
    if_pos (by simp [pdBin] : (0 : Element) ∈ pdBin.elements)]
  simp only [pdBin_collect, Bind.bind, Except.bind, pure, Except.pure]
  norm_num [List.insertionSort, List.orderedInsert, dedupeAdjacent, dedupeAux,
    numerical_tol]

theorem claim3_transition_chempots_witness :
    ((0 : Element) ∈ pdBin.elements ∧
     collect_chempots pdBin 0 pdBin.facets = .ok [0, -2] ∧
     get_transition_chempots pdBin 0 = .ok [0, -2]) ∧
    (([0, -2] : List ℚ) = (dedupeAdjacent numerical_tol
        (([0, -2] : List ℚ).insertionSort (fun a b => a ≤ b))).reverse ∧
      ([0, -2] : List ℚ).Chain' (fun a b => numerical_tol < a - b) ∧
      (∀ c ∈ ([0, -2] : List ℚ), ∃ r ∈ ([0, -2] : List ℚ),
        |c - r| ≤ numerical_tol) ∧
      ([0, -2] : List ℚ) ⊆ [0, -2]) :=
  ⟨⟨by simp [pdBin], pdBin_collect, pdBin_trans⟩,
    claim3_transition_chempots pdBin 0 [0, -2] [0, -2] (by simp [pdBin])
      pdBin_collect pdBin_trans⟩


/-- Soundness and completeness of the inner pair loop of the range map:
a simplex is returned exactly for the qualifying pairs (index intersection
of size `dim - 1`), with the chempot-minus-reference coordinate rows. -/
theorem range_map_simplices_char (pd : PhaseDiagram) (elements : List Element) :
    ∀ (pairs : List (List ℕ × List ℕ)) (sims : List RangeSimplex),
      range_map_simplices pd elements pairs = .ok sims →
      (∀ sim ∈ sims, ∃ fp ∈ pairs,
        (fp.1.toFinset ∩ fp.2.toFinset).card = pd.dim - 1 ∧
        ∃ c1 c2, get_facet_chempots pd fp.1 = .ok c1 ∧
          get_facet_chempots pd fp.2 = .ok c2 ∧
          sim = [chempot_coord_row pd elements c1,
                 chempot_coord_row pd elements c2]) ∧
      (∀ fp ∈ pairs, (fp.1.toFinset ∩ fp.2.toFinset).card = pd.dim - 1 →
        ∃ c1 c2, get_facet_chempots pd fp.1 = .ok c1 ∧
          get_facet_chempots pd fp.2 = .ok c2 ∧
          [chempot_coord_row pd elements c1,
           chempot_coord_row pd elements c2] ∈ sims) := by
  intro pairs
  induction pairs with
  | nil =>
    intro sims h
    rw [range_map_simplices] at h
    injection h with h
    subst h
    exact ⟨fun sim hs => absurd hs (List.not_mem_nil sim),
      fun fp hfp => absurd hfp (List.not_mem_nil fp)⟩
  | cons fp rest ih =>
    intro sims h
    rw [range_map_simplices, range_map_pair] at h
    simp only [Bind.bind] at h
    by_cases hq : (fp.1.toFinset ∩ fp.2.toFinset).card = pd.dim - 1
    · rw [if_pos hq] at h
      cases hc1 : get_facet_chempots pd fp.1 with
      | error e1 => rw [hc1, except_bind_error, except_bind_error] at h; cases h
      | ok c1 =>
        rw [hc1, except_bind_ok] at h
        cases hc2 : get_facet_chempots pd fp.2 with
        | error e2 => rw [hc2, except_bind_error, except_bind_error] at h; cases h
        | ok c2 =>
          rw [hc2, except_bind_ok] at h
          simp only [pure, Except.pure, except_bind_ok] at h
          cases hrest : range_map_simplices pd elements rest with
          | error e3 => rw [hrest, except_bind_error] at h; cases h
          | ok sims2 =>
            rw [hrest, except_bind_ok] at h
            injection h with h
            subst h
            obtain ⟨ih1, ih2⟩ := ih sims2 hrest
            constructor
            · intro sim hsim
              rcases List.mem_cons.1 hsim with rfl | hsim
              · exact ⟨fp, List.mem_cons_self fp rest, hq, c1, c2, hc1, hc2, rfl⟩
              · obtain ⟨fp2, hfp2, hq2, d1, d2, hd1, hd2, hs⟩ := ih1 sim hsim
                exact ⟨fp2, List.mem_cons_of_mem fp hfp2, hq2, d1, d2, hd1, hd2, hs⟩
            · intro fp2 hfp2 hq2
              rcases List.mem_cons.1 hfp2 with rfl | hfp2
              · exact ⟨c1, c2, hc1, hc2, List.mem_cons_self _ _⟩
              · obtain ⟨d1, d2, hd1, hd2, hmem⟩ := ih2 fp2 hfp2 hq2
                exact ⟨d1, d2, hd1, hd2, List.mem_cons_of_mem _ hmem⟩
    · rw [if_neg hq] at h
      simp only [pure, Except.pure, except_bind_ok] at h
      obtain ⟨ih1, ih2⟩ := ih sims h
      constructor
      · intro sim hsim
        obtain ⟨fp2, hfp2, hq2, d1, d2, hd1, hd2, hs⟩ := ih1 sim hsim
        exact ⟨fp2, List.mem_cons_of_mem fp hfp2, hq2, d1, d2, hd1, hd2, hs⟩
      · intro fp2 hfp2 hq2
        rcases List.mem_cons.1 hfp2 with rfl | hfp2
        · exact absurd hq2 hq
        · exact ih2 fp2 hfp2 hq2

/-- Characterization of the outer entry loop of the range map. -/
theorem range_map_loop_char (pd : PhaseDiagram) (elements : List Element) :
    ∀ (entries : List Entry) (m : List (Entry × List RangeSimplex)),
      range_map_loop pd elements entries = .ok m →
      (∀ e sims, (e, sims) ∈ m → e ∈ entries ∧ 0 < sims.length ∧
        range_map_simplices pd elements
          (comb2 (get_facets pd e.composition)) = .ok sims) ∧
      (∀ e ∈ entries, ∃ sims,
        range_map_simplices pd elements
          (comb2 (get_facets pd e.composition)) = .ok sims ∧
        (0 < sims.length → (e, sims) ∈ m)) := by
  intro entries
  induction entries with
  | nil =>
    intro m h
    rw [range_map_loop] at h
    injection h with h
    subst h
    exact ⟨fun e sims hes => absurd hes (List.not_mem_nil _),
      fun e he => absurd he (List.not_mem_nil e)⟩
  | cons entry rest ih =>
    intro m h
    rw [range_map_loop] at h
    simp only [Bind.bind] at h
    cases hsims : range_map_simplices pd elements
        (comb2 (get_facets pd entry.composition)) with
    | error err => rw [hsims, except_bind_error] at h; cases h
    | ok sims0 =>
      rw [hsims, except_bind_ok] at h
      cases hrest : range_map_loop pd elements rest with
      | error err => rw [hrest, except_bind_error] at h; cases h
      | ok others =>
        rw [hrest, except_bind_ok] at h
        simp only [pure, Except.pure] at h
        obtain ⟨ih1, ih2⟩ := ih others hrest
        by_cases hlen : 0 < sims0.length
        · rw [if_pos hlen] at h
          injection h with h
          subst h
          constructor
          · intro e sims hes
            rcases List.mem_cons.1 hes with heq | hmem
            · rw [Prod.mk.injEq] at heq
              obtain ⟨rfl, rfl⟩ := heq
              exact ⟨List.mem_cons_self e rest, hlen, hsims⟩
            · obtain ⟨he, hl, hs⟩ := ih1 e sims hmem
              exact ⟨List.mem_cons_of_mem entry he, hl, hs⟩
          · intro e he
            rcases List.mem_cons.1 he with rfl | hmem
            · exact ⟨sims0, hsims, fun _ => List.mem_cons_self _ _⟩
            · obtain ⟨sims, hs, himp⟩ := ih2 e hmem
              exact ⟨sims, hs, fun hp => List.mem_cons_of_mem _ (himp hp)⟩
        · rw [if_neg hlen] at h
          injection h with h
          subst h
          constructor
          · intro e sims hes
            obtain ⟨he, hl, hs⟩ := ih1 e sims hes
            exact ⟨List.mem_cons_of_mem entry he, hl, hs⟩
          · intro e he
            rcases List.mem_cons.1 he with rfl | hmem
            · exact ⟨sims0, hsims, fun hp => absurd hp hlen⟩
            · obtain ⟨sims, hs, himp⟩ := ih2 e hmem
              exact ⟨sims, hs, himp⟩


/-- C5: in the chemical-potential range map, a stable entry appears exactly
when some unordered pair of its facets shares an index intersection of size
`dim - 1`; every recorded simplex comes from such a qualifying pair with
coordinate rows the facets' chemical potentials offset by the pure
reference energies; and every qualifying pair is recorded. -/
theorem claim5_chempot_range_map (pd : PhaseDiagram) (elements : List Element)
    (m : List (Entry × List RangeSimplex))
    (hm : get_chempot_range_map pd elements = .ok m) :
    (∀ entry, (∃ sims, (entry, sims) ∈ m) ↔
      (entry ∈ pd.stable_entries ∧
        ∃ fp ∈ comb2 (get_facets pd entry.composition),
          (fp.1.toFinset ∩ fp.2.toFinset).card = pd.dim - 1)) ∧
    (∀ entry sims, (entry, sims) ∈ m → ∀ sim ∈ sims,
      ∃ fp ∈ comb2 (get_facets pd entry.composition),
        (fp.1.toFinset ∩ fp.2.toFinset).card = pd.dim - 1 ∧
        ∃ c1 c2, get_facet_chempots pd fp.1 = .ok c1 ∧
          get_facet_chempots pd fp.2 = .ok c2 ∧
          sim = [chempot_coord_row pd elements c1,
                 chempot_coord_row pd elements c2]) ∧
    (∀ entry sims, (entry, sims) ∈ m →
      ∀ fp ∈ comb2 (get_facets pd entry.composition),
        (fp.1.toFinset ∩ fp.2.toFinset).card = pd.dim - 1 →
        ∃ c1 c2, get_facet_chempots pd fp.1 = .ok c1 ∧
          get_facet_chempots pd fp.2 = .ok c2 ∧
          [chempot_coord_row pd elements c1,
           chempot_coord_row pd elements c2] ∈ sims) := by
  rw [get_chempot_range_map] at hm
  obtain ⟨l1, l2⟩ := range_map_loop_char pd elements pd.stable_entries m hm
  refine ⟨fun entry => ⟨?_, ?_⟩, ?_, ?_⟩
  · rintro ⟨sims, hes⟩
    obtain ⟨he, hlen, hsims⟩ := l1 entry sims hes
    obtain ⟨sim, hsim⟩ := List.exists_mem_of_length_pos hlen
    obtain ⟨fp, hfp, hq, _⟩ :=
      (range_map_simplices_char pd elements _ sims hsims).1 sim hsim
    exact ⟨he, fp, hfp, hq⟩
  · rintro ⟨he, fp, hfp, hq⟩
    obtain ⟨sims, hsims, himp⟩ := l2 entry he
    obtain ⟨c1, c2, _, _, hmem⟩ :=
      (range_map_simplices_char pd elements _ sims hsims).2 fp hfp hq
    exact ⟨sims, himp (List.length_pos_of_mem hmem)⟩
  · intro entry sims hes sim hsim
    obtain ⟨_, _, hsims⟩ := l1 entry sims hes
    exact (range_map_simplices_char pd elements _ sims hsims).1 sim hsim
  · intro entry sims hes fp hfp hq
    obtain ⟨_, _, hsims⟩ := l1 entry sims hes
    exact (range_map_simplices_char pd elements _ sims hsims).2 fp hfp hq

theorem pdBin_facets_A : get_facets pdBin cA = [[0, 2]] := by
  simp [get_facets, in_facet, in_simplex, linSolve, pdBin, PhaseDiagram.dim,
    numerical_tol, Matrix.det_fin_two, Matrix.of_apply,
    Matrix.updateColumn_apply, Composition.get_atomic_fraction,
    Composition.amount, Composition.num_atoms, cA,
    Fin.forall_fin_two, List.filter]
  norm_num

theorem pdBin_facets_B : get_facets pdBin cB = [[2, 1]] := by
  simp [get_facets, in_facet, in_simplex, linSolve, pdBin, PhaseDiagram.dim,
    numerical_tol, Matrix.det_fin_two, Matrix.of_apply,
    Matrix.updateColumn_apply, Composition.get_atomic_fraction,
    Composition.amount, Composition.num_atoms, cB,
    Fin.forall_fin_two, List.filter]
  norm_num

theorem pdBin_facets_AB : get_facets pdBin cAB = [[0, 2], [2, 1]] := by
  simp [get_facets, in_facet, in_simplex, linSolve, pdBin, PhaseDiagram.dim,
    numerical_tol, Matrix.det_fin_two, Matrix.of_apply,
    Matrix.updateColumn_apply, Composition.get_atomic_fraction,
    Composition.amount, Composition.num_atoms, cAB,
    Fin.forall_fin_two, List.filter]
  norm_num

theorem pdBin_chempots_1 : get_facet_chempots pdBin [0, 2] = .ok [(0, 0), (1, -2)] := by
  simp [get_facet_chempots, linSolve, pdBin, PhaseDiagram.dim, make_comp_matrix,
    Matrix.det_fin_two, Matrix.of_apply, Matrix.updateColumn_apply,
    Composition.get_atomic_fraction, Composition.amount, Composition.num_atoms,
    cA, cB, cAB, eA, eB, eAB, dComp, dEntry, List.finRange]
  norm_num

theorem pdBin_chempots_2 : get_facet_chempots pdBin [2, 1] = .ok [(0, -2), (1, 0)] := by
  simp [get_facet_chempots, linSolve, pdBin, PhaseDiagram.dim, make_comp_matrix,
    Matrix.det_fin_two, Matrix.of_apply, Matrix.updateColumn_apply,
    Composition.get_atomic_fraction, Composition.amount, Composition.num_atoms,
    cA, cB, cAB, eA, eB, eAB, dComp, dEntry, List.finRange]
  norm_num

theorem pdBin_simplices_AB :
    range_map_simplices pdBin [0, 1] [([0, 2], [2, 1])] =
      .ok [[[0, -2], [-2, 0]]] := by
  rw [range_map_simplices, range_map_pair]
  simp only [Bind.bind]
  rw [if_pos (by decide :
    (([0, 2] : List ℕ).toFinset ∩ ([2, 1] : List ℕ).toFinset).card = pdBin.dim - 1)]
  rw [pdBin_chempots_1, except_bind_ok, pdBin_chempots_2, except_bind_ok]
  simp only [pure, Except.pure, except_bind_ok]
  rw [range_map_simplices]
  simp only [except_bind_ok, chempot_coord_row, lookupD, List.map, List.find?,
    pdBin]
  norm_num [dEntry, eA, eB, dComp]

/-- Concrete range map on the binary hull: only the AB compound has a
qualifying facet pair, with simplex rows [0, -2] and [-2, 0]. -/
theorem pdBin_range_map :
    get_chempot_range_map pdBin [0, 1] = .ok [(eAB, [[[0, -2], [-2, 0]]])] := by
  have hsA : pdBin.stable_entries = [eA, eB, eAB] := rfl
  have hcompA : eA.composition = cA := rfl
  have hcompB : eB.composition = cB := rfl
  have hcompAB : eAB.composition = cAB := rfl
  have hc2A : comb2 [([0, 2] : List ℕ)] = [] := rfl
  have hc2B : comb2 [([2, 1] : List ℕ)] = [] := rfl
  have hc2AB : comb2 [([0, 2] : List ℕ), [2, 1]] = [([0, 2], [2, 1])] := rfl
  have hnil : range_map_simplices pdBin [0, 1] [] = .ok [] := rfl
  have hloopnil : range_map_loop pdBin [0, 1] [] = .ok [] := rfl
  rw [get_chempot_range_map, hsA, range_map_loop]
  simp only [Bind.bind, hcompA, pdBin_facets_A, hc2A, hnil, except_bind_ok]
  rw [range_map_loop]
  simp only [Bind.bind, hcompB, pdBin_facets_B, hc2B, hnil, except_bind_ok]
  rw [range_map_loop]
  simp only [Bind.bind, hcompAB, pdBin_facets_AB, hc2AB, pdBin_simplices_AB,
    except_bind_ok]
  rw [hloopnil]
  simp only [except_bind_ok, pure, Except.pure, List.length_nil,
    List.length_cons]
  norm_num
  rfl


/-- Witness for C5 on the binary hull: the range map is computed, and the
membership characterization holds at the AB compound. -/
theorem claim5_chempot_range_map_witness :
    get_chempot_range_map pdBin [0, 1] = .ok [(eAB, [[[0, -2], [-2, 0]]])] ∧
    ((∃ sims : List RangeSimplex, (eAB, sims) ∈
        ([(eAB, [[[0, -2], [-2, 0]]])] : List (Entry × List RangeSimplex))) ↔
      (eAB ∈ pdBin.stable_entries ∧
        ∃ fp ∈ comb2 (get_facets pdBin eAB.composition),
          (fp.1.toFinset ∩ fp.2.toFinset).card = pdBin.dim - 1)) :=
  ⟨pdBin_range_map,
    (claim5_chempot_range_map pdBin [0, 1] _ pdBin_range_map).1 eAB⟩


/-- A successful `in_simplex` test yields a barycentric solution with all
coordinates at least `-tol`. -/
theorem in_simplex_sol {n : ℕ} (coords : List (List ℚ)) (point : List ℚ)
    (tol : ℚ) (hn : coords.length = n)
    (h : in_simplex coords point tol = true) :
    ∃ lam : Fin n → ℚ,
      linSolve n
        (Matrix.of fun j i => if (j : ℕ) = 0 then 1
          else (coords.getD i []).getD ((j : ℕ) - 1) 0)
        (fun j => if (j : ℕ) = 0 then 1 else point.getD ((j : ℕ) - 1) 0) =
        some lam ∧
      ∀ i, -tol ≤ lam i := by
  subst hn
  rw [in_simplex] at h
  cases hls : linSolve coords.length
      (Matrix.of fun j i => if (j : ℕ) = 0 then 1
        else (coords.getD i []).getD ((j : ℕ) - 1) 0)
      (fun j => if (j : ℕ) = 0 then 1 else point.getD ((j : ℕ) - 1) 0) with
  | none => rw [hls] at h; cases h
  | some lam =>
    rw [hls] at h
    exact ⟨lam, rfl, of_decide_eq_true h⟩


/-- C2 (amended): on a valid hull, every amount returned by
`get_decomposition` is non-negative, and the fraction-weighted
recombination of the returned entries reproduces the input composition's
atomic fractions within `(dim - 1) ×` tolerance — the pruning can drop up
to `dim - 1` amounts of magnitude up to the tolerance, so the plain
tolerance bound of the claim fails for `dim ≥ 3`
(see the counterexample). -/
theorem claim2_decomposition (pd : PhaseDiagram) (comp : Composition)
    (d : List (Entry × ℚ))
    (hfl : ∀ facet ∈ pd.facets, facet.length = pd.dim)
    (hfi : ∀ facet ∈ pd.facets, ∀ i ∈ facet, i < pd.qhull_entries.length)
    (hq : ∀ i < pd.qhull_entries.length, ∀ k < pd.dim - 1,
      (pd.qhull_data.getD i []).getD k 0 =
        (pd.qhull_entries.getD i dEntry).composition.get_atomic_fraction
          (pd.elements.getD (k + 1) 0))
    (hnn : ∀ e ∈ pd.qhull_entries, ∀ el : Element,
      0 ≤ e.composition.get_atomic_fraction el)
    (hrow : ∀ e ∈ pd.qhull_entries,
      ∑ j : Fin pd.dim, e.composition.get_atomic_fraction
        (pd.elements.getD (j : ℕ) 0) = 1)
    (hcomp : ∑ j : Fin pd.dim,
      comp.get_atomic_fraction (pd.elements.getD (j : ℕ) 0) = 1)
    (hsmall : (pd.dim : ℚ) * numerical_tol < 1)
    (h : get_decomposition pd comp = .ok d) :
    (∀ p ∈ d, 0 ≤ p.2) ∧
    ∀ j : Fin pd.dim,
      |(d.map (fun p => p.2 * p.1.composition.get_atomic_fraction
          (pd.elements.getD (j : ℕ) 0))).sum -
        comp.get_atomic_fraction (pd.elements.getD (j : ℕ) 0)| ≤
        ((pd.dim : ℚ) - 1) * numerical_tol := by
  obtain ⟨facet, x, hgf, hls, hd⟩ := get_decomposition_sol pd comp d h
  -- the found facet is a hull facet and contains the composition
  have hfmem : facet ∈ pd.facets := by
    rw [get_facet] at hgf
    cases hf : pd.facets.find? (fun f => in_facet pd f comp) with
    | some f => rw [hf] at hgf; injection hgf with hgf; subst hgf; exact List.mem_of_find?_eq_some hf
    | none => rw [hf] at hgf; cases hgf
  have hinf : in_facet pd facet comp = true := by
    rw [get_facet] at hgf
    cases hf : pd.facets.find? (fun f => in_facet pd f comp) with
    | some f =>
      rw [hf] at hgf
      injection hgf with hgf
      subst hgf
      have h2 := List.find?_some hf
      simpa using h2
    | none => rw [hf] at hgf; cases hgf
  have hlen : facet.length = pd.dim := hfl facet hfmem
  -- the facet entries, and the comp matrix in terms of them
  have hidx : ∀ i : Fin pd.dim, facet.getD (i : ℕ) 0 < pd.qhull_entries.length := by
    intro i
    have hi : (i : ℕ) < facet.length := by rw [hlen]; exact i.isLt
    exact hfi facet hfmem _ (getD_mem facet (i : ℕ) 0 hi)
  have hemem : ∀ i : Fin pd.dim,
      pd.qhull_entries.getD (facet.getD (i : ℕ) 0) dEntry ∈ pd.qhull_entries :=
    fun i => getD_mem _ _ _ (hidx i)
  set M := (make_comp_matrix pd (facet.map (fun i =>
    (pd.qhull_entries.getD i dEntry).composition))) with hMdef
  have hM : ∀ (i j : Fin pd.dim), M i j =
      (pd.qhull_entries.getD (facet.getD (i : ℕ) 0) dEntry).composition.get_atomic_fraction
        (pd.elements.getD (j : ℕ) 0) := by
    intro i j
    have hi : (i : ℕ) < facet.length := by rw [hlen]; exact i.isLt
    rw [hMdef]
    show (((facet.map (fun i => (pd.qhull_entries.getD i dEntry).composition)).getD
      (i : ℕ) dComp)).get_atomic_fraction (pd.elements.getD (j : ℕ) 0) = _
    rw [getD_map_of_lt _ _ _ _ 0 hi]
  have hMrow : ∀ i : Fin pd.dim, ∑ j : Fin pd.dim, M i j = 1 := by
    intro i
    have := hrow _ (hemem i)
    simp only [hM]
    exact this
  have hMnn : ∀ i j : Fin pd.dim, 0 ≤ M i j := by
    intro i j
    rw [hM]
    exact hnn _ (hemem i) _
  have hM1 : ∀ i j : Fin pd.dim, M i j ≤ 1 := by
    intro i j
    calc M i j ≤ ∑ k : Fin pd.dim, M i k :=
          Finset.single_le_sum (fun k _ => hMnn i k) (Finset.mem_univ j)
    _ = 1 := hMrow i
  have hsol : M.transpose.mulVec x = fracVec pd comp := linSolve_mulVec hls
  have hcj : ∀ j : Fin pd.dim, ∑ i : Fin pd.dim, M i j * x i = fracVec pd comp j := by
    intro j
    rw [← hsol]
    simp [Matrix.mulVec, Matrix.dotProduct, Matrix.transpose_apply]
  have hxsum : ∑ i : Fin pd.dim, x i = 1 := by
    have h1 : ∑ j : Fin pd.dim, fracVec pd comp j = 1 := hcomp
    have h2 : ∑ j : Fin pd.dim, ∑ i : Fin pd.dim, M i j * x i = 1 := by
      rw [← h1]
      exact Finset.sum_congr rfl (fun j _ => hcj j)
    rw [Finset.sum_comm] at h2
    calc ∑ i : Fin pd.dim, x i
        = ∑ i : Fin pd.dim, (∑ j : Fin pd.dim, M i j) * x i := by
          refine Finset.sum_congr rfl (fun i _ => ?_)
          rw [hMrow i, one_mul]
    _ = ∑ i : Fin pd.dim, ∑ j : Fin pd.dim, M i j * x i := by
          refine Finset.sum_congr rfl (fun i _ => ?_)
          rw [Finset.sum_mul]
    _ = 1 := h2
  have htolpos : (0 : ℚ) < numerical_tol := by norm_num [numerical_tol]
  have hxge : ∀ i : Fin pd.dim, -numerical_tol ≤ x i := by
    by_cases hdim : 1 < pd.dim
    · simp only [in_facet, if_pos hdim] at hinf
      set coords := facet.map
        (fun i => (pd.qhull_data.getD i []).take (pd.dim - 1)) with hcoords
      set point := (List.range (pd.dim - 1)).map
        (fun j => comp.get_atomic_fraction (pd.elements.getD (j + 1) 0))
        with hpoint
      have hcl : coords.length = pd.dim := by rw [hcoords, List.length_map, hlen]
      obtain ⟨lam, hlsB, hge⟩ :=
        in_simplex_sol coords point numerical_tol hcl hinf
      have hBx : (Matrix.of fun j i : Fin pd.dim => if (j : ℕ) = 0 then 1
          else (coords.getD i []).getD ((j : ℕ) - 1) 0).mulVec x =
          (fun j : Fin pd.dim =>
            if (j : ℕ) = 0 then 1 else point.getD ((j : ℕ) - 1) 0) := by
        funext j
        by_cases hj : (j : ℕ) = 0
        · simp [Matrix.mulVec, Matrix.dotProduct, Matrix.of_apply, hj, hxsum]
        · have hk : (j : ℕ) - 1 < pd.dim - 1 := by
            have := j.isLt
            omega
          have hBij : ∀ i : Fin pd.dim,
              (coords.getD (i : ℕ) []).getD ((j : ℕ) - 1) 0 = M i j := by
            intro i
            have hi : (i : ℕ) < facet.length := by rw [hlen]; exact i.isLt
            rw [hcoords, getD_map_of_lt _ _ _ _ 0 hi,
              getD_take_of_lt _ _ _ hk, hq _ (hidx i) _ hk, hM i j]
            congr 2
            omega
          have hside : point.getD ((j : ℕ) - 1) 0 =
              fracVec pd comp j := by
            rw [hpoint, getD_range_map _ _ _ _ hk]
            show comp.get_atomic_fraction _ = comp.get_atomic_fraction _
            congr 2
            omega
          simp only [Matrix.mulVec, Matrix.dotProduct, Matrix.of_apply,
            if_neg hj, hside]
          calc ∑ i : Fin pd.dim, (coords.getD (i : ℕ) []).getD ((j : ℕ) - 1) 0 * x i
              = ∑ i : Fin pd.dim, M i j * x i :=
                Finset.sum_congr rfl (fun i _ => by rw [hBij i])
          _ = fracVec pd comp j := hcj j
      have hxlam := linSolve_unique hlsB hBx
      intro i
      rw [hxlam]
      exact hge i
    · intro i
      have hd1 : pd.dim = 1 := by
        have hpos : 0 < pd.dim := i.pos
        omega
      have hall : ∀ k : Fin pd.dim, k = i := by
        intro k
        apply Fin.ext
        have h1 := k.isLt
        have h2 := i.isLt
        omega
      have hx1 : x i = 1 := by
        rw [← hxsum]
        rw [show (Finset.univ : Finset (Fin pd.dim)) = {i} from
          Finset.eq_singleton_iff_unique_mem.2
            ⟨Finset.mem_univ i, fun k _ => hall k⟩]
        rw [Finset.sum_singleton]
      rw [hx1]
      linarith
  have hkeep : ∀ p ∈ d, 0 ≤ p.2 := by
    intro p hp
    rw [hd, filterMap_ite_eq (fun i : Fin pd.dim => numerical_tol < |x i|)
      (fun i => (pd.qhull_entries.getD (facet.getD (i : ℕ) 0) dEntry, x i))
      (List.finRange pd.dim)] at hp
    obtain ⟨i, hi, rfl⟩ := List.mem_map.1 hp
    have hPi : numerical_tol < |x i| := by
      have h2 := List.of_mem_filter hi
      simpa using h2
    have h3 := hxge i
    rcases abs_cases (x i) with ⟨habs, _⟩ | ⟨habs, _⟩
    · rw [habs] at hPi
      exact le_of_lt (lt_trans htolpos hPi)
    · rw [habs] at hPi
      linarith
  refine ⟨hkeep, ?_⟩
  intro j
  have hrecomb : (d.map (fun p => p.2 * p.1.composition.get_atomic_fraction
      (pd.elements.getD (j : ℕ) 0))).sum =
      ∑ i ∈ Finset.univ.filter (fun i : Fin pd.dim => numerical_tol < |x i|),
        x i * M i j := by
    rw [hd, filterMap_ite_eq, List.map_map, sum_map_filter, Finset.sum_filter,
      Fin.sum_univ_def]
    apply congrArg List.sum
    apply List.map_congr_left
    intro i _
    by_cases hP : numerical_tol < |x i|
    · simp [hP, Function.comp, hM i j]
    · simp [hP, Function.comp]
  have htarget : comp.get_atomic_fraction (pd.elements.getD (j : ℕ) 0) =
      ∑ i : Fin pd.dim, M i j * x i := (hcj j).symm
  rw [hrecomb, htarget]
  have hcomm : (∑ i ∈ Finset.univ.filter
        (fun i : Fin pd.dim => numerical_tol < |x i|), x i * M i j) =
      ∑ i ∈ Finset.univ.filter
        (fun i : Fin pd.dim => numerical_tol < |x i|), M i j * x i :=
    Finset.sum_congr rfl (fun i _ => mul_comm _ _)
  have hsplit := Finset.sum_filter_add_sum_filter_not Finset.univ
    (fun i : Fin pd.dim => numerical_tol < |x i|) (fun i => M i j * x i)
  rw [hcomm]
  have hdrop : (∑ i ∈ Finset.univ.filter
        (fun i : Fin pd.dim => numerical_tol < |x i|), M i j * x i) -
      (∑ i : Fin pd.dim, M i j * x i) =
      -(∑ i ∈ Finset.univ.filter
        (fun i : Fin pd.dim => ¬ numerical_tol < |x i|), M i j * x i) := by
    rw [← hsplit]
    ring
  rw [hdrop, abs_neg]
  have hone : ∃ i : Fin pd.dim, numerical_tol < |x i| := by
    by_contra hno
    push_neg at hno
    have habs1 : |(1 : ℚ)| ≤ (pd.dim : ℚ) * numerical_tol := by
      calc |(1 : ℚ)| = |∑ i : Fin pd.dim, x i| := by rw [hxsum]
      _ ≤ ∑ i : Fin pd.dim, |x i| := Finset.abs_sum_le_sum_abs _ _
      _ ≤ ∑ _i : Fin pd.dim, numerical_tol :=
            Finset.sum_le_sum (fun i _ => hno i)
      _ = (pd.dim : ℚ) * numerical_tol := by
            rw [Finset.sum_const, Finset.card_univ, Fintype.card_fin,
              nsmul_eq_mul]
    rw [abs_one] at habs1
    linarith
  have hdimpos : 0 < pd.dim := (hone.choose).pos
  have hcard : ((Finset.univ.filter
      (fun i : Fin pd.dim => ¬ numerical_tol < |x i|)).card : ℚ) ≤
      (pd.dim : ℚ) - 1 := by
    have h4 := Finset.filter_card_add_filter_neg_card_eq_card
      (s := Finset.univ) (p := fun i : Fin pd.dim => numerical_tol < |x i|)
    rw [Finset.card_univ, Fintype.card_fin] at h4
    have h5 : 0 < (Finset.univ.filter
        (fun i : Fin pd.dim => numerical_tol < |x i|)).card := by
      obtain ⟨i, hi⟩ := hone
      exact Finset.card_pos.2 ⟨i, Finset.mem_filter.2 ⟨Finset.mem_univ i, hi⟩⟩
    have h6 : (Finset.univ.filter
        (fun i : Fin pd.dim => ¬ numerical_tol < |x i|)).card ≤ pd.dim - 1 := by
      omega
    have h7 : ((pd.dim - 1 : ℕ) : ℚ) = (pd.dim : ℚ) - 1 := by
      push_cast [Nat.cast_sub hdimpos]
      ring
    calc ((Finset.univ.filter
        (fun i : Fin pd.dim => ¬ numerical_tol < |x i|)).card : ℚ)
        ≤ ((pd.dim - 1 : ℕ) : ℚ) := by exact_mod_cast h6
    _ = (pd.dim : ℚ) - 1 := h7
  calc |∑ i ∈ Finset.univ.filter
        (fun i : Fin pd.dim => ¬ numerical_tol < |x i|), M i j * x i|
      ≤ ∑ i ∈ Finset.univ.filter
        (fun i : Fin pd.dim => ¬ numerical_tol < |x i|), |M i j * x i| :=
        Finset.abs_sum_le_sum_abs _ _
  _ ≤ ∑ _i ∈ Finset.univ.filter
        (fun i : Fin pd.dim => ¬ numerical_tol < |x i|), numerical_tol := by
        refine Finset.sum_le_sum (fun i hi => ?_)
        have hxi : |x i| ≤ numerical_tol := by
          have := (Finset.mem_filter.1 hi).2
          linarith [not_lt.1 this]
        rw [abs_mul]
        calc |M i j| * |x i| ≤ 1 * numerical_tol := by
              refine mul_le_mul ?_ hxi (abs_nonneg _) zero_le_one
              rw [abs_of_nonneg (hMnn i j)]
              exact hM1 i j
        _ = numerical_tol := one_mul _
  _ = ((Finset.univ.filter
        (fun i : Fin pd.dim => ¬ numerical_tol < |x i|)).card : ℚ) *
        numerical_tol := by rw [Finset.sum_const, nsmul_eq_mul]
  _ ≤ ((pd.dim : ℚ) - 1) * numerical_tol := by
        exact mul_le_mul_of_nonneg_right hcard (le_of_lt htolpos)


def c3B : Composition := ⟨[(0, 1/20), (1, 9/10), (2, 1/20)]⟩

def c3C : Composition := ⟨[(0, 1/10), (1, 9/10)]⟩

def e3B : Entry := ⟨c3B, 0, none⟩

def e3C : Entry := ⟨c3C, 0, none⟩

def cBig : Composition :=
  ⟨[(0, 19999999667/20000000000), (1, 81/5000000000), (2, 9/20000000000)]⟩

def pd3 : PhaseDiagram :=
  ⟨[0, 1, 2], [eA, e3B, e3C], [[0, 0], [9/10, 1/20], [9/10, 0]], [[0, 1, 2]],
   [eA, e3B, e3C], [eA, e3B, e3C], [(0, eA), (1, e3B), (2, e3C)]⟩

theorem pd3_decomp :
    get_decomposition pd3 cBig = .ok [(eA, 499999991/500000000)] := by
  simp [get_decomposition, get_facet, in_facet, in_simplex, linSolve, pd3,
    PhaseDiagram.dim, numerical_tol, make_comp_matrix, fracVec,
    Matrix.det_fin_three, Matrix.of_apply, Matrix.updateColumn_apply,
    Matrix.transpose_apply, Composition.get_atomic_fraction,
    Composition.amount, Composition.num_atoms, cA, c3B, c3C, cBig, eA, e3B,
    e3C, dComp, dEntry, Fin.forall_fin_succ, Fin.forall_fin_two,
    List.find?, List.finRange, List.filterMap, Bind.bind, Except.bind,
    pure, Except.pure]
  norm_num
  simp
  norm_num
  rw [show |(499999991 : ℚ)/500000000| = 499999991/500000000 from by
        rw [abs_of_nonneg]; norm_num,
      show |(9 : ℚ)/1000000000| = 9/1000000000 from by
        rw [abs_of_nonneg]; norm_num]
  norm_num


/-- Counterexample to C2 as stated: on a valid ternary hull (all fraction
rows sum to 1) the decomposition of `cBig` succeeds, but its recombination
misses the target fraction of element 1 by 81/5000000000 ≈ 1.62e-8, which
exceeds the tolerance 1e-8: the pruning dropped two amounts just below the
tolerance whose fractions add up. -/
theorem claim2_counterexample :
    get_decomposition pd3 cBig = .ok [(eA, 499999991/500000000)] ∧
    (∑ j : Fin pd3.dim,
      cBig.get_atomic_fraction (pd3.elements.getD (j : ℕ) 0)) = 1 ∧
    (∀ e ∈ pd3.qhull_entries, ∑ j : Fin pd3.dim,
      e.composition.get_atomic_fraction (pd3.elements.getD (j : ℕ) 0) = 1) ∧
    numerical_tol <
      |(([(eA, (499999991 : ℚ)/500000000)]).map
          (fun p => p.2 * p.1.composition.get_atomic_fraction
            (pd3.elements.getD 1 0))).sum -
        cBig.get_atomic_fraction (pd3.elements.getD 1 0)| := by
  refine ⟨pd3_decomp, ?_, ?_, ?_⟩
  · show (∑ j : Fin 3,
      cBig.get_atomic_fraction ([0, 1, 2].getD (j : ℕ) 0)) = 1
    norm_num [Fin.sum_univ_three, cBig, Composition.get_atomic_fraction,
      Composition.amount, Composition.num_atoms]
  · intro e he
    show ∑ j : Fin 3,
      e.composition.get_atomic_fraction ([0, 1, 2].getD (j : ℕ) 0) = 1
    fin_cases he <;>
      norm_num [Fin.sum_univ_three, eA, e3B, e3C, cA, c3B, c3C,
        Composition.get_atomic_fraction, Composition.amount,
        Composition.num_atoms] <;> decide
  · norm_num [numerical_tol, eA, cA, cBig, Composition.get_atomic_fraction,
      Composition.amount, Composition.num_atoms, pd3]
    rw [show |(81 : ℚ)/5000000000| = 81/5000000000 from by
      rw [abs_of_nonneg]; norm_num]
    norm_num

/-- Witness for the amended C2 on the binary hull. -/
theorem claim2_decomposition_witness :
    get_decomposition pdBin cAB = .ok [(eAB, 1)] ∧
    ((∀ p ∈ ([(eAB, 1)] : List (Entry × ℚ)), 0 ≤ p.2) ∧
    ∀ j : Fin pdBin.dim,
      |(([(eAB, (1 : ℚ))]).map (fun p =>
          p.2 * p.1.composition.get_atomic_fraction
            (pdBin.elements.getD (j : ℕ) 0))).sum -
        cAB.get_atomic_fraction (pdBin.elements.getD (j : ℕ) 0)| ≤
        ((pdBin.dim : ℚ) - 1) * numerical_tol) :=
  ⟨pdBin_decomp_AB,
    claim2_decomposition pdBin cAB [(eAB, 1)]
      (by decide)
      (by decide)
      (by
        intro i hi k hk
        have hi3 : i < 3 := by simpa [pdBin] using hi
        have hk1 : k < 1 := by simpa [pdBin, PhaseDiagram.dim] using hk
        interval_cases i <;> interval_cases k <;>
          norm_num [pdBin, eA, eB, eAB, cA, cB, cAB, dEntry, dComp,
            PhaseDiagram.dim, Composition.get_atomic_fraction,
            Composition.amount, Composition.num_atoms])
      (by
        intro e he el
        fin_cases he <;>
          simp [eA, eB, eAB, cA, cB, cAB, Composition.get_atomic_fraction,
            Composition.amount, Composition.num_atoms] <;>
          split_ifs <;> norm_num)
      (by
        intro e he
        show ∑ j : Fin 2,
          e.composition.get_atomic_fraction ([0, 1].getD (j : ℕ) 0) = 1
        fin_cases he <;>
          norm_num [Fin.sum_univ_two, eA, eB, eAB, cA, cB, cAB,
            Composition.get_atomic_fraction, Composition.amount,
            Composition.num_atoms] <;> decide)
      (by
        show ∑ j : Fin 2,
          cAB.get_atomic_fraction ([0, 1].getD (j : ℕ) 0) = 1
        norm_num [Fin.sum_univ_two, cAB, Composition.get_atomic_fraction,
          Composition.amount, Composition.num_atoms])
      (by norm_num [PhaseDiagram.dim, pdBin, numerical_tol])
      pdBin_decomp_AB⟩


/-- Properties of the profile sweep loop: recorded chempots form a
sublist of the swept potentials (in order); each event's entries are the
step computation at the event's chempot shifted by `-0.01`; an event is
recorded exactly when the membership test against the last recorded
decomposition (with the element composition inserted) fails. -/
theorem profile_loop_props
    (gcpdBuild : List Entry → Element → ℚ → List Element → PhaseDiagram)
    (balance : Composition → List Composition → List Composition × List ℚ)
    (pd : PhaseDiagram) (element : Element) (gccomp : Composition)
    (comp : Composition) (elcomp : Composition) (elref : Entry) :
    ∀ (cs : List ℚ) (prev : List Composition) (evs : List EvolutionEvent),
      profile_loop gcpdBuild balance pd element gccomp comp elcomp elref
        prev cs = .ok evs →
      (evs.map (fun ev => ev.chempot)).Sublist cs ∧
      (∀ ev ∈ evs, profile_step_entries gcpdBuild pd element gccomp
        (ev.chempot - 1/100) = .ok ev.entries) ∧
      (∀ ev0 ∈ evs.head?,
        are_same_decomp prev (ev0.entries.map (fun e => e.composition)) = false) ∧
      evs.Chain' (fun e1 e2 =>
        are_same_decomp
          (if elcomp ∈ e1.entries.map (fun e => e.composition)
           then e1.entries.map (fun e => e.composition)
           else elcomp :: e1.entries.map (fun e => e.composition))
          (e2.entries.map (fun e => e.composition)) = false) := by
  intro cs
  induction cs with
  | nil =>
    intro prev evs h
    rw [profile_loop] at h
    injection h with h
    subst h
    exact ⟨List.nil_sublist _, fun ev hev => absurd hev (List.not_mem_nil ev),
      fun ev0 hev0 => absurd hev0 (by simp), by simp⟩
  | cons c rest ih =>
    intro prev evs h
    rw [profile_loop] at h
    simp only [Bind.bind] at h
    cases hse : profile_step_entries gcpdBuild pd element gccomp
        (c - 1/100) with
    | error err => rw [hse, except_bind_error] at h; cases h
    | ok es =>
      rw [hse, except_bind_ok] at h
      by_cases hsame : are_same_decomp prev
          (es.map (fun e => e.composition)) = true
      · rw [if_pos hsame] at h
        obtain ⟨h1, h2, h3, h4⟩ := ih prev evs h
        exact ⟨h1.trans (List.sublist_cons_self c rest), h2, h3, h4⟩
      · rw [if_neg hsame] at h
        cases hrest : profile_loop gcpdBuild balance pd element gccomp comp
            elcomp elref
            (if elcomp ∈ es.map (fun e => e.composition)
             then es.map (fun e => e.composition)
             else elcomp :: es.map (fun e => e.composition)) rest with
        | error err => rw [hrest, except_bind_error] at h; cases h
        | ok evs2 =>
          rw [hrest, except_bind_ok] at h
          simp only [pure, Except.pure] at h
          injection h with h
          subst h
          obtain ⟨h1, h2, h3, h4⟩ := ih _ evs2 hrest
          refine ⟨?_, ?_, ?_, ?_⟩
          · exact List.Sublist.cons₂ c h1
          · intro ev hev
            rcases List.mem_cons.1 hev with rfl | hev
            · exact hse
            · exact h2 ev hev
          · intro ev0 hev0
            simp only [List.head?_cons, Option.mem_def, Option.some.injEq]
              at hev0
            subst hev0
            exact Bool.eq_false_iff.2 hsame
          · rw [List.chain'_cons']
            exact ⟨h3, h4⟩


/-- Exactness of event recording in the profile sweep: for distinct
potentials, an event carrying the i-th potential (with the i-th step's
entries) is recorded if and only if the membership test of that step's
decomposition against the last recorded decomposition (the state after the
first i potentials) fails. -/
theorem profile_loop_exact
    (gcpdBuild : List Entry → Element → ℚ → List Element → PhaseDiagram)
    (balance : Composition → List Composition → List Composition × List ℚ)
    (pd : PhaseDiagram) (element : Element) (gccomp : Composition)
    (comp : Composition) (elcomp : Composition) (elref : Entry) :
    ∀ (cs : List ℚ) (prev : List Composition) (evs : List EvolutionEvent),
      cs.Nodup →
      profile_loop gcpdBuild balance pd element gccomp comp elcomp elref
        prev cs = .ok evs →
      ∀ i, i < cs.length → ∀ (p : List Composition) (es : List Entry),
        profile_prev gcpdBuild pd element gccomp elcomp prev
          (cs.take i) = .ok p →
        profile_step_entries gcpdBuild pd element gccomp
          (cs.getD i 0 - 1/100) = .ok es →
        ((∃ ev ∈ evs, ev.chempot = cs.getD i 0 ∧ ev.entries = es) ↔
          are_same_decomp p (es.map (fun e => e.composition)) = false) := by
  intro cs
  induction cs with
  | nil =>
    intro prev evs _ _ i hi
    exact absurd hi (Nat.not_lt_zero i)
  | cons c rest ih =>
    intro prev evs hnd h i hi p es hpp hes
    obtain ⟨hcrest, hndr⟩ := List.nodup_cons.1 hnd
    rw [profile_loop] at h
    simp only [Bind.bind] at h
    cases hse0 : profile_step_entries gcpdBuild pd element gccomp
        (c - 1/100) with
    | error err => rw [hse0, except_bind_error] at h; cases h
    | ok es0 =>
      rw [hse0, except_bind_ok] at h
      by_cases hsame : are_same_decomp prev
          (es0.map (fun e => e.composition)) = true
      · rw [if_pos hsame] at h
        cases i with
        | zero =>
          rw [List.take_zero, profile_prev] at hpp
          injection hpp with hpp
          subst hpp
          rw [List.getD_cons_zero] at hes
          rw [hse0] at hes
          injection hes with hes
          subst hes
          constructor
          · rintro ⟨ev, hev, hevc, _⟩
            have hsub := (profile_loop_props gcpdBuild balance pd element
              gccomp comp elcomp elref rest prev evs h).1
            have hmem : ev.chempot ∈ rest :=
              hsub.subset (List.mem_map_of_mem _ hev)
            rw [List.getD_cons_zero] at hevc
            rw [hevc] at hmem
            exact absurd hmem hcrest
          · intro hfalse
            rw [hsame] at hfalse
            cases hfalse
        | succ j =>
          rw [List.take_succ_cons, profile_prev] at hpp
          simp only [Bind.bind] at hpp
          rw [hse0, except_bind_ok, if_pos hsame] at hpp
          rw [List.getD_cons_succ] at hes
          have hj : j < rest.length := by
            simp only [List.length_cons] at hi
            omega
          rw [List.getD_cons_succ]
          exact ih prev evs hndr h j hj p es hpp hes
      · rw [if_neg hsame] at h
        cases hrest : profile_loop gcpdBuild balance pd element gccomp comp
            elcomp elref
            (if elcomp ∈ es0.map (fun e => e.composition)
             then es0.map (fun e => e.composition)
             else elcomp :: es0.map (fun e => e.composition)) rest with
        | error err => rw [hrest, except_bind_error] at h; cases h
        | ok evs2 =>
          rw [hrest, except_bind_ok] at h
          simp only [pure, Except.pure] at h
          injection h with h
          subst h
          cases i with
          | zero =>
            rw [List.take_zero, profile_prev] at hpp
            injection hpp with hpp
            subst hpp
            rw [List.getD_cons_zero] at hes
            rw [hse0] at hes
            injection hes with hes
            subst hes
            rw [List.getD_cons_zero]
            constructor
            · intro _
              exact Bool.eq_false_iff.2 hsame
            · intro _
              exact ⟨_, List.mem_cons_self _ _, rfl, rfl⟩
          | succ j =>
            rw [List.take_succ_cons, profile_prev] at hpp
            simp only [Bind.bind] at hpp
            rw [hse0, except_bind_ok, if_neg hsame] at hpp
            rw [List.getD_cons_succ] at hes
            have hj : j < rest.length := by
              simp only [List.length_cons] at hi
              omega
            have hiff := ih _ evs2 hndr hrest j hj p es hpp hes
            have hmemj : rest.getD j 0 ∈ rest := getD_mem _ _ _ hj
            have hne : c ≠ rest.getD j 0 := fun hc => hcrest (hc ▸ hmemj)
            rw [List.getD_cons_succ]
            constructor
            · rintro ⟨ev, hev, hevc, heve⟩
              rcases List.mem_cons.1 hev with rfl | hev2
              · exact absurd hevc hne
              · exact hiff.1 ⟨ev, hev2, hevc, heve⟩
            · intro hfalse
              obtain ⟨ev, hev, hevc, heve⟩ := hiff.2 hfalse
              exact ⟨ev, List.mem_cons_of_mem _ hev, hevc, heve⟩

/-- C10: every recorded evolution event carries the unshifted transition
potential as its chempot, while its decomposition data was computed from
the grand-potential hull built at that potential shifted by `-0.01`. -/
theorem claim10_profile_chempot_unshifted
    (gcpdBuild : List Entry → Element → ℚ → List Element → PhaseDiagram)
    (balance : Composition → List Composition → List Composition × List ℚ)
    (pd : PhaseDiagram) (element : Element) (comp : Composition)
    (cs : List ℚ) (evs : List EvolutionEvent)
    (hcs : get_transition_chempots pd element = .ok cs)
    (hprof : get_element_profile gcpdBuild balance pd element comp = .ok evs) :
    ∀ ev ∈ evs, ev.chempot ∈ cs ∧
      profile_step_entries gcpdBuild pd element
        ⟨comp.amounts.filter (fun p => p.1 ≠ element)⟩
        (ev.chempot - 1/100) = .ok ev.entries := by
  have hel : element ∈ pd.elements := by
    by_contra hel
    rw [get_transition_chempots, if_neg hel] at hcs
    cases hcs
  rw [get_element_profile, if_pos hel] at hprof
  simp only [Bind.bind] at hprof
  rw [hcs, except_bind_ok] at hprof
  obtain ⟨h1, h2, _, _⟩ := profile_loop_props gcpdBuild balance pd element
    _ comp _ _ cs [] evs hprof
  intro ev hev
  exact ⟨h1.subset (List.mem_map_of_mem _ hev), h2 ev hev⟩


/-- C4 (amended): in `get_element_profile` every recorded event's data is
computed at its transition potential shifted by `-0.01`; the events are
ordered by decreasing potential (a sublist of `get_transition_chempots`,
strictly decreasing); and — the final conjunct, an iff at every sweep
step — an event carrying the i-th transition potential is recorded
exactly when the one-directional membership test of that step's
decomposition against the last *recorded* decomposition (the
`profile_prev` state, with the element composition inserted) fails — not
when the decomposition merely differs from the previous step's. -/
theorem claim4_element_profile
    (gcpdBuild : List Entry → Element → ℚ → List Element → PhaseDiagram)
    (balance : Composition → List Composition → List Composition × List ℚ)
    (pd : PhaseDiagram) (element : Element) (comp : Composition)
    (cs : List ℚ) (evs : List EvolutionEvent)
    (hcs : get_transition_chempots pd element = .ok cs)
    (hprof : get_element_profile gcpdBuild balance pd element comp = .ok evs) :
    (evs.map (fun ev => ev.chempot)).Sublist cs ∧
    (evs.map (fun ev => ev.chempot)).Chain'
      (fun a b => numerical_tol < a - b) ∧
    (∀ ev ∈ evs, profile_step_entries gcpdBuild pd element
      ⟨comp.amounts.filter (fun p => p.1 ≠ element)⟩
      (ev.chempot - 1/100) = .ok ev.entries) ∧
    (∀ ev0 ∈ evs.head?, are_same_decomp []
      (ev0.entries.map (fun e => e.composition)) = false) ∧
    evs.Chain' (fun e1 e2 => are_same_decomp
      (if (⟨[(element, 1)]⟩ : Composition) ∈
          e1.entries.map (fun e => e.composition)
       then e1.entries.map (fun e => e.composition)
       else (⟨[(element, 1)]⟩ : Composition) ::
          e1.entries.map (fun e => e.composition))
      (e2.entries.map (fun e => e.composition)) = false) ∧
    (∀ i, i < cs.length → ∀ (p : List Composition) (es : List Entry),
      profile_prev gcpdBuild pd element
        ⟨comp.amounts.filter (fun p => p.1 ≠ element)⟩
        ⟨[(element, 1)]⟩ [] (cs.take i) = .ok p →
      profile_step_entries gcpdBuild pd element
        ⟨comp.amounts.filter (fun p => p.1 ≠ element)⟩
        (cs.getD i 0 - 1/100) = .ok es →
      ((∃ ev ∈ evs, ev.chempot = cs.getD i 0 ∧ ev.entries = es) ↔
        are_same_decomp p (es.map (fun e => e.composition)) = false)) := by
  have hel : element ∈ pd.elements := by
    by_contra hel
    rw [get_transition_chempots, if_neg hel] at hcs
    cases hcs
  have hcs2 := hcs
  rw [get_transition_chempots, if_pos hel] at hcs2
  simp only [Bind.bind] at hcs2
  rw [get_element_profile, if_pos hel] at hprof
  simp only [Bind.bind] at hprof
  rw [hcs, except_bind_ok] at hprof
  obtain ⟨h1, h2, h3, h4⟩ := profile_loop_props gcpdBuild balance pd element
    _ comp _ _ cs [] evs hprof
  have htrans : IsTrans ℚ (fun a b => numerical_tol < a - b) := by
    refine ⟨fun a b c hab hbc => ?_⟩
    have : (0 : ℚ) < numerical_tol := by norm_num [numerical_tol]
    simp only at hab hbc ⊢
    linarith
  have hchain : cs.Chain' (fun a b => numerical_tol < a - b) := by
    cases hcol : collect_chempots pd element pd.facets with
    | error err => rw [hcol, except_bind_error] at hcs2; cases hcs2
    | ok pots =>
      rw [hcol, except_bind_ok] at hcs2
      simp only [pure, Except.pure, Except.ok.injEq] at hcs2
      rw [← hcs2, List.chain'_reverse]
      exact dedupeAdjacent_chain numerical_tol _
        (List.sorted_insertionSort (fun a b => a ≤ b) pots)
  have hnodup : cs.Nodup := by
    have hpair := (List.chain'_iff_pairwise).1 hchain
    refine hpair.imp ?_
    intro a b hab
    have : (0 : ℚ) < numerical_tol := by norm_num [numerical_tol]
    intro heq
    rw [heq] at hab
    simp only [sub_self] at hab
    linarith
  refine ⟨h1, @List.Chain'.sublist ℚ _ _ _ htrans hchain h1, h2, h3, h4, ?_⟩
  exact profile_loop_exact gcpdBuild balance pd element _ comp _ _ cs [] evs
    hnodup hprof

def compP : Composition := ⟨[(0, 1), (1, 1), (2, 1)]⟩

def gccompP : Composition := ⟨[(1, 1), (2, 1)]⟩

def elcompP : Composition := ⟨[(0, 1)]⟩

def gA : Entry := ⟨⟨[(1, 1)]⟩, 0, none⟩

def gB : Entry := ⟨⟨[(2, 1)]⟩, 0, none⟩

def gcpd1 : PhaseDiagram :=
  ⟨[1, 2], [gA, gB], [[0], [1]], [[0, 1]], [gA, gB], [gA, gB],
   [(1, gA), (2, gB)]⟩

def gcpd2 : PhaseDiagram :=
  ⟨[1], [gA], [[]], [[0]], [gA], [gA], [(1, gA)]⟩

def gcB : List Entry → Element → ℚ → List Element → PhaseDiagram :=
  fun _ _ pot _ => if pot = -1/100 then gcpd1 else gcpd2

def balB : Composition → List Composition → List Composition × List ℚ :=
  fun c ds => (c :: ds, (c :: ds).map (fun _ => 1))

def comp8 : Composition := ⟨[(0, 1), (1, 999999), (2, 1)]⟩

def gccomp8 : Composition := ⟨[(1, 999999), (2, 1)]⟩

def evP : EvolutionEvent :=
  ⟨0, -1, eA, ([compP, elcompP, ⟨[(1, 1)]⟩, ⟨[(2, 1)]⟩], [1, 1, 1, 1]),
   [gA, gB]⟩

theorem gcpd1_decomp :
    get_decomposition gcpd1 gccompP = .ok [(gA, 1/2), (gB, 1/2)] := by
  simp [get_decomposition, get_facet, in_facet, in_simplex, linSolve, gcpd1,
    PhaseDiagram.dim, numerical_tol, make_comp_matrix, fracVec,
    Matrix.det_fin_two, Matrix.of_apply, Matrix.updateColumn_apply,
    Matrix.transpose_apply, Composition.get_atomic_fraction,
    Composition.amount, Composition.num_atoms, gA, gB, gccompP, dComp, dEntry,
    Fin.forall_fin_two, List.find?, List.finRange, List.filterMap, Bind.bind,
    Except.bind, pure, Except.pure]
  norm_num
  rw [show |(1 : ℚ)/2| = 1/2 from by rw [abs_of_nonneg]; norm_num]
  norm_num

theorem gcpd2_decomp :
    get_decomposition gcpd2 gccompP = .ok [(gA, 1/2)] := by
  simp [get_decomposition, get_facet, in_facet, in_simplex, linSolve, gcpd2,
    PhaseDiagram.dim, numerical_tol, make_comp_matrix, fracVec,
    Matrix.det_fin_one, Matrix.of_apply, Matrix.updateColumn_apply,
    Matrix.transpose_apply, Composition.get_atomic_fraction,
    Composition.amount, Composition.num_atoms, gA, gccompP, dComp, dEntry,
    Fin.forall_fin_one, List.find?, List.finRange, List.filterMap, Bind.bind,
    Except.bind, pure, Except.pure]
  norm_num
  rw [show |(1 : ℚ)/2| = 1/2 from by rw [abs_of_nonneg]; norm_num]
  norm_num

theorem gcpd1_decomp8 :
    get_decomposition gcpd1 gccomp8 =
      .ok [(gA, 999999/1000000), (gB, 1/1000000)] := by
  simp [get_decomposition, get_facet, in_facet, in_simplex, linSolve, gcpd1,
    PhaseDiagram.dim, numerical_tol, make_comp_matrix, fracVec,
    Matrix.det_fin_two, Matrix.of_apply, Matrix.updateColumn_apply,
    Matrix.transpose_apply, Composition.get_atomic_fraction,
    Composition.amount, Composition.num_atoms, gA, gB, gccomp8, dComp, dEntry,
    Fin.forall_fin_two, List.find?, List.finRange, List.filterMap, Bind.bind,
    Except.bind, pure, Except.pure]
  norm_num
  rw [show |(999999 : ℚ)/1000000| = 999999/1000000 from by
        rw [abs_of_nonneg]; norm_num,
      show |(1 : ℚ)/1000000| = 1/1000000 from by rw [abs_of_nonneg]; norm_num]
  norm_num

theorem step1_entries :
    profile_step_entries gcB pdBin 0 gccompP (0 - 1/100) = .ok [gA, gB] := by
  rw [profile_step_entries, profile_step]
  simp only [Bind.bind, gcB]
  rw [if_pos (by norm_num : (0 : ℚ) - 1/100 = -1/100), gcpd1_decomp,
    except_bind_ok]
  simp only [pure, Except.pure]
  norm_num [List.filterMap_cons, profile_amount_threshold,
    Entry.original_entry, gA, gB]

theorem step2_entries :
    profile_step_entries gcB pdBin 0 gccompP (-2 - 1/100) = .ok [gA] := by
  rw [profile_step_entries, profile_step]
  simp only [Bind.bind, gcB]
  rw [if_neg (by norm_num : ¬((-2 : ℚ) - 1/100 = -1/100)), gcpd2_decomp,
    except_bind_ok]
  simp only [pure, Except.pure]
  norm_num [List.filterMap_cons, profile_amount_threshold,
    Entry.original_entry, gA]

theorem step8_entries :
    profile_step_entries gcB pdBin 0 gccomp8 (0 - 1/100) = .ok [gA] := by
  rw [profile_step_entries, profile_step]
  simp only [Bind.bind, gcB]
  rw [if_pos (by norm_num : (0 : ℚ) - 1/100 = -1/100), gcpd1_decomp8,
    except_bind_ok]
  simp only [pure, Except.pure]
  norm_num [List.filterMap_cons, profile_amount_threshold,
    Entry.original_entry, gA, gB]

theorem profile_run :
    get_element_profile gcB balB pdBin 0 compP = .ok [evP] := by
  rw [get_element_profile,
    if_pos (by simp [pdBin] : (0 : Element) ∈ pdBin.elements)]
  simp only [Bind.bind]
  rw [pdBin_trans, except_bind_ok]
  show profile_loop gcB balB pdBin 0 gccompP compP elcompP eA [] [0, -2] =
    .ok [evP]
  rw [profile_loop]
  simp only [Bind.bind]
  rw [step1_entries, except_bind_ok]
  rw [if_neg (by simp [are_same_decomp, gA, gB] :
    ¬(are_same_decomp []
      ([gA, gB].map (fun e => e.composition)) = true))]
  rw [if_neg (by simp [elcompP, gA, gB] :
    ¬(elcompP ∈ [gA, gB].map (fun e => e.composition)))]
  simp only [balB]
  rw [profile_loop]
  simp only [Bind.bind]
  rw [step2_entries, except_bind_ok]
  rw [if_pos (by simp [elcompP, gA, gB, are_same_decomp] :
    are_same_decomp
      (elcompP :: [gA, gB].map (fun e => e.composition))
      ([gA].map (fun e => e.composition)) = true)]
  rw [profile_loop]
  simp only [except_bind_ok, pure, Except.pure]
  simp [evP, eA, elcompP, compP, gA, gB, List.indexOf_cons, beq_iff_eq]


/-- Counterexample to C4 as stated: on a concrete run the decomposition at
the second transition potential differs from the first step's
decomposition (gB's composition left it), yet only one evolution event is
recorded, because the code's one-directional membership test against the
last recorded decomposition passes. -/
theorem claim4_counterexample :
    get_transition_chempots pdBin 0 = .ok [0, -2] ∧
    profile_step_entries gcB pdBin 0 gccompP ((0 : ℚ) - 1/100) =
      .ok [gA, gB] ∧
    profile_step_entries gcB pdBin 0 gccompP ((-2 : ℚ) - 1/100) =
      .ok [gA] ∧
    gB.composition ∈ [gA, gB].map (fun e => e.composition) ∧
    gB.composition ∉ [gA].map (fun e => e.composition) ∧
    get_element_profile gcB balB pdBin 0 compP = .ok [evP] ∧
    evP.chempot = 0 :=
  ⟨pdBin_trans, step1_entries, step2_entries, by simp,
   by simp [gA, gB], profile_run, rfl⟩

/-- Witness for the amended C4 at the concrete profile run. -/
theorem claim4_element_profile_witness :
    (get_transition_chempots pdBin 0 = .ok [0, -2] ∧
     get_element_profile gcB balB pdBin 0 compP = .ok [evP]) ∧
    (([evP].map (fun ev => ev.chempot)).Sublist [0, -2] ∧
     ([evP].map (fun ev => ev.chempot)).Chain'
       (fun a b => numerical_tol < a - b) ∧
     (∀ ev ∈ [evP], profile_step_entries gcB pdBin 0
       ⟨compP.amounts.filter (fun p => p.1 ≠ 0)⟩
       (ev.chempot - 1/100) = .ok ev.entries) ∧
     (∀ ev0 ∈ [evP].head?, are_same_decomp []
       (ev0.entries.map (fun e => e.composition)) = false) ∧
     [evP].Chain' (fun e1 e2 => are_same_decomp
       (if (⟨[(0, 1)]⟩ : Composition) ∈
           e1.entries.map (fun e => e.composition)
        then e1.entries.map (fun e => e.composition)
        else (⟨[(0, 1)]⟩ : Composition) ::
           e1.entries.map (fun e => e.composition))
       (e2.entries.map (fun e => e.composition)) = false) ∧
     (∀ i, i < ([0, -2] : List ℚ).length →
       ∀ (p : List Composition) (es : List Entry),
       profile_prev gcB pdBin 0
         ⟨compP.amounts.filter (fun p => p.1 ≠ 0)⟩
         ⟨[(0, 1)]⟩ [] (([0, -2] : List ℚ).take i) = .ok p →
       profile_step_entries gcB pdBin 0
         ⟨compP.amounts.filter (fun p => p.1 ≠ 0)⟩
         (([0, -2] : List ℚ).getD i 0 - 1/100) = .ok es →
       ((∃ ev ∈ [evP], ev.chempot = ([0, -2] : List ℚ).getD i 0 ∧
           ev.entries = es) ↔
         are_same_decomp p (es.map (fun e => e.composition)) = false))) :=
  ⟨⟨pdBin_trans, profile_run⟩,
   claim4_element_profile gcB balB pdBin 0 compP [0, -2] [evP]
     pdBin_trans profile_run⟩

/-- Witness for C10 at the concrete profile run. -/
theorem claim10_profile_chempot_unshifted_witness :
    (get_transition_chempots pdBin 0 = .ok [0, -2] ∧
     get_element_profile gcB balB pdBin 0 compP = .ok [evP]) ∧
    ∀ ev ∈ [evP], ev.chempot ∈ ([0, -2] : List ℚ) ∧
      profile_step_entries gcB pdBin 0
        ⟨compP.amounts.filter (fun p => p.1 ≠ 0)⟩
        (ev.chempot - 1/100) = .ok ev.entries :=
  ⟨⟨pdBin_trans, profile_run⟩,
   claim10_profile_chempot_unshifted gcB balB pdBin 0 compP [0, -2] [evP]
     pdBin_trans profile_run⟩

/-- Amended C8: the facet-membership, decomposition-pruning and
dedupe decisions all use the single constant `numerical_tol = 1e-8`, but
`get_element_profile` filters decomposition amounts with the ad hoc
threshold `1e-5`, not the process-wide tolerance. -/
theorem claim8_tolerances :
    numerical_tol = 1/100000000 ∧
    in_facet = in_facetT numerical_tol ∧
    get_decomposition = get_decompositionT numerical_tol ∧
    get_transition_chempots = get_transition_chempotsT numerical_tol ∧
    profile_step_entries = profile_step_entriesT profile_amount_threshold ∧
    profile_amount_threshold = 1/100000 ∧
    profile_amount_threshold ≠ numerical_tol :=
  ⟨rfl, rfl, rfl, rfl, rfl, rfl,
   by norm_num [profile_amount_threshold, numerical_tol]⟩

/-- Counterexample to C8 as stated: the profile's amount filter drops a
decomposition amount of 1e-6, which the process-wide tolerance 1e-8 would
keep — an ad hoc epsilon (1e-5) decides amount pruning in
`get_element_profile`. -/
theorem claim8_counterexample :
    profile_amount_threshold ≠ numerical_tol ∧
    get_decomposition gcpd1 gccomp8 =
      .ok [(gA, 999999/1000000), (gB, 1/1000000)] ∧
    numerical_tol < 1/1000000 ∧
    profile_step_entries gcB pdBin 0 gccomp8 ((0 : ℚ) - 1/100) = .ok [gA] :=
  ⟨by norm_num [profile_amount_threshold, numerical_tol], gcpd1_decomp8,
   by norm_num [numerical_tol], step8_entries⟩

end PhaseDiag
